import Mathlib

/-!
# carbonapi: the customAlias rewrite function

A shallow embedding of `expr/rewrite/customAlias/function.go`.

Go strings are modelled as lists of characters.  The two separators the code
searches for, `.` and `%`, are single ASCII bytes, so splitting and replacing
on characters agrees with Go's byte-wise `strings` functions on every valid
UTF-8 string.

A Go run-time panic is an explicit outcome of the embedded functions: nothing
in `function.go` recovers from one.
-/

namespace CustomAlias

/-- A Go string. -/
abbrev GoString := List Char

/-! ## Run-time outcomes -/

/-- The run-time panics the code of `function.go` can raise. -/
inductive Panic where
  /-- Index expression `xs[i]` with `i` outside `0 ≤ i < len(xs)`. -/
  | indexOutOfRange
  /-- Slice expression `xs[lo:hi]` with bounds outside `0 ≤ lo ≤ hi ≤ cap(xs)`. -/
  | sliceBoundsOutOfRange
  /-- Assignment `m[k] = v` on a nil map. -/
  | nilMapAssignment
  deriving DecidableEq, Repr

/-- A Go call either returns a value or panics. -/
inductive Outcome (α : Type) where
  | returned (a : α)
  | panicked (p : Panic)
  deriving DecidableEq, Repr

/-- Error values (`error` interface values) seen by `Do`.  The two parser
errors are the sentinels `parser.ErrMissingArgument` and `parser.ErrBadType`;
every other error, such as one coming from the series fetch, is `other`. -/
inductive GoError where
  | missingArgument
  | badType
  | other (msg : GoString)
  deriving DecidableEq, Repr

/-! ## The `strings` calls made by `Do` -/

/-- `strings.Split(s, sep)` for a one-byte separator: the substrings between
the occurrences of `sep`; always at least one element. -/
def stringsSplit (sep : Char) : GoString → List GoString
  | [] => [[]]
  | c :: t =>
    if c = sep then [] :: stringsSplit sep t
    else
      match stringsSplit sep t with
      | [] => [[c]]
      | h :: r => (c :: h) :: r

/-- `strings.Join(elems, sep)`. -/
def stringsJoin (sep : GoString) : List GoString → GoString
  | [] => []
  | [a] => a
  | a :: b :: r => a ++ sep ++ stringsJoin sep (b :: r)

/-- `strings.Replace(s, old, new, -1)` for a one-byte `old`: every occurrence
of `old` in `s` is replaced by `new`. -/
def stringsReplace (old : Char) (new : GoString) : GoString → GoString
  | [] => []
  | c :: t =>
    if c = old then new ++ stringsReplace old new t
    else c :: stringsReplace old new t

/-- The slice expression `xs[0:high]`: panics unless `0 ≤ high ≤ cap(xs)`.
The slice returned by `strings.Split` has its capacity equal to its length. -/
def sliceTo {α : Type} (xs : List α) (high : Int) : Outcome (List α) :=
  if 0 ≤ high ∧ high ≤ (xs.length : Int) then .returned (xs.take high.toNat)
  else .panicked .sliceBoundsOutOfRange

/-- `fmt.Sprintf("alias(%s,\"%s\")", a, b)`. -/
def sprintfAlias (a b : GoString) : GoString :=
  "alias(".toList ++ a ++ [',', '"'] ++ b ++ ['"', ')']

/-! ## The data model of `function.go` -/

/-- `types.FunctionType`, an integer-coded enumeration declared outside this
file. -/
abbrev FunctionType := Int

/-- One formal parameter of an alias (`arguments`, lines 28-32). -/
structure arguments where
  Name : GoString
  Required : Bool
  Typ : FunctionType
  deriving DecidableEq, Repr

/-- One configured alias (`aliasConfig`, lines 34-43).  The field
`parsedTemplate` is written only to the loop's local copy of the entry and is
never read, so it is left out. -/
structure aliasConfig where
  PreserveName : Bool
  Template : GoString
  Args : List arguments
  Module : GoString
  Group : GoString
  Description : GoString
  deriving DecidableEq, Repr

/-- The zero value of `aliasConfig`. -/
def aliasConfig.zero : aliasConfig :=
  ⟨false, [], [], [], [], []⟩

/-- The decoded configuration (`customAliasConfig`, lines 45-48).  The Go map
`Aliases` is the list of its entries in the order in which `range` visits
them; the keys of a Go map are pairwise distinct. -/
structure customAliasConfig where
  Enabled : Bool
  Aliases : List (GoString × aliasConfig)
  deriving DecidableEq, Repr

/-- `types.FunctionParam`, the fields set by `New`. -/
structure FunctionParam where
  Name : GoString
  Required : Bool
  Typ : FunctionType
  deriving DecidableEq, Repr

/-- `types.FunctionDescription`, the fields set by `New`. -/
structure FunctionDescription where
  Name : GoString
  Params : List FunctionParam
  Description : GoString
  Module : GoString
  Group : GoString
  deriving DecidableEq, Repr

/-- A Go map with string keys: `none` is the nil map, `some l` an allocated
map holding the entries `l` (keys pairwise distinct). -/
abbrev GoMap (V : Type) := Option (List (GoString × V))

/-- The assignment `m[k] = v`: panics on the nil map, otherwise replaces or
adds the entry for `k`. -/
def GoMap.assign {V : Type} (m : GoMap V) (k : GoString) (v : V) : Outcome (GoMap V) :=
  match m with
  | none => .panicked .nilMapAssignment
  | some l => .returned (some (l.filter (fun kv => kv.1 ≠ k) ++ [(k, v)]))

/-- The read `m[k]`: the value stored for `k`, or the zero value `zero` of the
value type when `k` is absent or the map is nil. -/
def GoMap.lookup {V : Type} (m : GoMap V) (k : GoString) (zero : V) : V :=
  match m with
  | none => zero
  | some l =>
    match l.find? (fun kv => kv.1 = k) with
    | some kv => kv.2
    | none => zero

/-- The keys of a Go map; the nil map has none. -/
def GoMap.keys {V : Type} (m : GoMap V) : List GoString :=
  match m with
  | none => []
  | some l => l.map Prod.fst

/-- The engine (`customAlias`, lines 21-26). -/
structure customAlias where
  configuredAliases : GoMap aliasConfig
  description : GoMap FunctionDescription
  deriving DecidableEq, Repr

/-- `customAlias.Description` (lines 183-185). -/
def customAlias.Description (f : customAlias) : GoMap FunctionDescription :=
  f.description

/-! ## Expressions and series -/

/-- The part of `parser.Expr` that `Do` looks at: the expression kind, its
target name, its constant value and its arguments. -/
inductive Expr where
  /-- A series reference (`EtName`). -/
  | name (target : GoString)
  /-- A numeric constant (`EtConst`), holding `int(e.val)`. -/
  | const (val : Int)
  /-- A string constant (`EtString`). -/
  | str (valStr : GoString)
  /-- A function call (`EtFunc`) with its positional arguments. -/
  | func (target : GoString) (args : List Expr)

/-- `e.Args()`. -/
def Expr.Args : Expr → List Expr
  | .func _ args => args
  | _ => []

/-- `e.Target()`. -/
def Expr.Target : Expr → GoString
  | .name t => t
  | .func t _ => t
  | _ => []

/-- Modelled from the spec: `parser.Expr.GetIntArg` is declared outside this
file.  "Require `N`; fail with a missing/invalid-argument error if absent or
non-numeric." -/
def Expr.GetIntArg (e : Expr) (n : Nat) : Except GoError Int :=
  match e.Args.get? n with
  | none => .error .missingArgument
  | some (.const v) => .ok v
  | some _ => .error .badType

/-- Modelled from the spec: `parser.Expr.GetStringArg` is declared outside
this file.  "Require `callback`; fail if absent." and "`rename` must parse as
a string; fail if it does not." -/
def Expr.GetStringArg (e : Expr) (n : Nat) : Except GoError GoString :=
  match e.Args.get? n with
  | none => .error .missingArgument
  | some (.str s) => .ok s
  | some _ => .error .badType

/-- The field of `types.MetricData` read by `Do`. -/
structure MetricData where
  Name : GoString
  deriving DecidableEq, Repr

/-- The three values returned by `Do`: `(bool, []string, error)`.  A nil and
an empty `[]string` are both the empty list. -/
structure DoResult where
  handled : Bool
  rv : List GoString
  err : Option GoError
  deriving DecidableEq, Repr

/-- The series-fetch collaborator `helper.GetSeriesArg(arg, from, until,
values)`, with the time range and the fetched values fixed. -/
abbrev SeriesFetch := Expr → Except GoError (List MetricData)

/-- One iteration of the loop of `Do` (lines 169-176): the expression produced
for the series `a`. -/
def rewriteSeries (extractMetric : GoString → GoString) (field : Int)
    (callback newName : GoString) (a : MetricData) : Outcome GoString :=
  let metric := extractMetric a.Name
  let nodes := stringsSplit '.' metric
  match sliceTo nodes field with
  | .panicked p => .panicked p
  | .returned firstNodes =>
    let node := stringsJoin ['.'] firstNodes
    let newTarget := stringsReplace '%' node callback
    if newName ≠ [] then
      .returned (sprintfAlias newTarget (stringsReplace '%' node newName))
    else
      .returned newTarget

/-- The loop of `Do` (lines 167-178), appending to `rv`. -/
def rewriteLoop (extractMetric : GoString → GoString) (field : Int)
    (callback newName : GoString) : List MetricData → List GoString → Outcome (List GoString)
  | [], rv => .returned rv
  | a :: rest, rv =>
    match rewriteSeries extractMetric field callback newName a with
    | .panicked p => .panicked p
    | .returned newTarget =>
      rewriteLoop extractMetric field callback newName rest (rv ++ [newTarget])

/-- The optional fourth argument of `Do` (lines 159-165). -/
def getNewName (e : Expr) : Except GoError GoString :=
  if e.Args.length = 4 then e.GetStringArg 3 else .ok []

/-- `customAlias.Do` (lines 141-180).  The time range and the fetched values
reach the code only through `getSeriesArg`.  Line 147 reads
`f.configuredAliases[e.Target()]` into `aliasCfg`, which no later statement
uses. -/
def Do (getSeriesArg : SeriesFetch) (extractMetric : GoString → GoString)
    (f : customAlias) (e : Expr) : Outcome DoResult :=
  match e.Args with
  | [] => .panicked .indexOutOfRange
  | arg0 :: _ =>
    match getSeriesArg arg0 with
    | .error err => .returned ⟨false, [], some err⟩
    | .ok args =>
      let _aliasCfg := f.configuredAliases.lookup e.Target aliasConfig.zero
      match e.GetIntArg 1 with
      | .error err => .returned ⟨false, [], some err⟩
      | .ok field =>
        match e.GetStringArg 2 with
        | .error err => .returned ⟨false, [], some err⟩
        | .ok callback =>
          match getNewName e with
          | .error err => .returned ⟨false, [], some err⟩
          | .ok newName =>
            match rewriteLoop extractMetric field callback newName args [] with
            | .panicked p => .panicked p
            | .returned rv => .returned ⟨true, rv, none⟩

/-! ## Building the catalog: `New` -/

/-- `interfaces.RewriteFunctionMetadata`: a name and the engine registered
under it.  `F` is a pointer in Go; every record made by one call of `New`
points at the same engine, so `F` holds that engine as it is when `New`
returns. -/
structure RewriteFunctionMetadata where
  Name : GoString
  F : customAlias
  deriving DecidableEq, Repr

/-- What `New` writes to the logger below the fatal level. -/
inductive LogEntry where
  | info (msg : String)
  | warn (msg : String) (aliasName : GoString)
  deriving DecidableEq, Repr

/-- What `viper` makes of the configuration file (lines 52-75). -/
inductive ConfigFile where
  /-- `configFile == ""`. -/
  | unspecified
  /-- `v.ReadInConfig()` fails. -/
  | unreadable
  /-- `v.Unmarshal(&cfg)` fails. -/
  | malformed
  /-- The file decodes into `cfg`. -/
  | decoded (cfg : customAliasConfig)
  deriving DecidableEq, Repr

/-- How a call of `New` ends. -/
inductive NewOutcome where
  /-- `logger.Fatal`: the process exits. -/
  | fatal (msg : String)
  /-- A run-time panic. -/
  | panicked (p : Panic)
  /-- `New` returns the registration records; `log` is what was logged. -/
  | returned (res : List RewriteFunctionMetadata) (log : List LogEntry)
  deriving DecidableEq, Repr

/-- The defaults of lines 91-99, applied to the loop's copy `d` of an entry. -/
def applyDefaults (d : aliasConfig) : aliasConfig :=
  let d := if d.Group = [] then { d with Group := "CustomAlias".toList } else d
  let d := if d.Module = [] then { d with Module := "graphite.render.functions".toList } else d
  if d.Description = [] then { d with Description := d.Template } else d

/-- The `types.FunctionParam` made from one `arguments` value. -/
def toParam (p : arguments) : FunctionParam :=
  ⟨p.Name, p.Required, p.Typ⟩

/-- The loop of lines 120-127 over `d.Args[1:]`: the signature text written to
`function` and the parameters appended to `params`. -/
def appendArgs : List arguments → GoString × List FunctionParam → GoString × List FunctionParam
  | [], acc => acc
  | p :: rest, (function, params) =>
    appendArgs rest (function ++ (", ".toList ++ p.Name), params ++ [toParam p])

/-- Lines 111-128: the signature `n(arg0, arg1, ...)` and the parameter list.
`d.Args[0]` panics when `d.Args` is empty. -/
def buildSignature (n : GoString) (d : aliasConfig) : Outcome (GoString × List FunctionParam) :=
  match d.Args with
  | [] => .panicked .indexOutOfRange
  | a0 :: rest =>
    let function := (n ++ "(".toList) ++ a0.Name
    let params := [] ++ [toParam a0]
    let (function, params) := appendArgs rest (function, params)
    .returned (function ++ [')'], params)

/-- The state the loop of `New` carries: the names of the records appended to
`res` (each record is `(Name: n, F: f)` with the one pointer `f`), the engine
`f` points at, and the log. -/
structure NewState where
  res : List GoString
  f : customAlias
  log : List LogEntry
  deriving DecidableEq, Repr

/-- The body of the loop of `New` (lines 90-136) for the entry `n, d`.
`templateParses n t` says whether `template.New(n).Parse(t)` succeeds. -/
def newStep (templateParses : GoString → GoString → Bool) (n : GoString) (d : aliasConfig)
    (st : NewState) : Outcome NewState :=
  let st := { st with res := st.res ++ [n] }
  let d := applyDefaults d
  if templateParses n d.Template = false then
    .returned { st with log := st.log ++ [.warn "failed to parse template for alias" n] }
  else
    match buildSignature n d with
    | .panicked p => .panicked p
    | .returned (_, params) =>
      match st.f.description.assign n ⟨n, params, d.Description, d.Module, d.Group⟩ with
      | .panicked p => .panicked p
      | .returned m => .returned { st with f := { st.f with description := m } }

/-- The loop of `New` (lines 89-137) over the entries of `cfg.Aliases`. -/
def newLoop (templateParses : GoString → GoString → Bool) :
    List (GoString × aliasConfig) → NewState → Outcome NewState
  | [], st => .returned st
  | (n, d) :: rest, st =>
    match newStep templateParses n d st with
    | .panicked p => .panicked p
    | .returned st1 => newLoop templateParses rest st1

/-- `New` (lines 50-139).  The engine starts as `&customAlias{}`: both of its
maps are nil. -/
def New (templateParses : GoString → GoString → Bool) : ConfigFile → NewOutcome
  | .unspecified => .returned [] [.info "no config file specified"]
  | .unreadable => .fatal "failed to read config file"
  | .malformed => .fatal "failed to parse config"
  | .decoded cfg =>
    if cfg.Enabled = false then
      .returned [] [.info "config file found, but function is disabled"]
    else if cfg.Aliases.length = 0 then
      .returned [] [.info "config file found, but no custom aliases configured"]
    else
      match newLoop templateParses cfg.Aliases ⟨[], ⟨none, none⟩, []⟩ with
      | .panicked p => .panicked p
      | .returned st => .returned (st.res.map (fun n => ⟨n, st.f⟩)) st.log

/-- The names of the registration records `New` returns, if it returns. -/
def NewOutcome.names : NewOutcome → Option (List GoString)
  | .returned res _ => some (res.map (fun r => r.Name))
  | _ => none

/-- The documentation mapping read through `Description` from the engine the
records of `New` point at, if `New` returns at least one record. -/
def NewOutcome.Description : NewOutcome → Option (GoMap FunctionDescription)
  | .returned (r :: _) _ => some r.F.Description
  | _ => none

/-! ## Spec-side definitions -/

/-- The node as section 4.2 of the specification words it: the first `N`
segments of the metric path, `N` clamped to `[0, segment-count]`, joined with
`.`.  Compared below with the node `rewriteSeries` computes. -/
def specClampedNode (metric : GoString) (N : Int) : GoString :=
  let segments := stringsSplit '.' metric
  stringsJoin ['.'] (segments.take (min (max N 0) (segments.length : Int)).toNat)

/-- The entry the loop body of `New` makes for the alias `n, d` once the
template has parsed and `d.Args` is not empty: the `types.FunctionDescription`
literal of lines 130-136 on the defaults of lines 91-99. -/
def entryOf (n : GoString) (d : aliasConfig) : FunctionDescription :=
  ⟨n, d.Args.map toParam, (applyDefaults d).Description, (applyDefaults d).Module,
    (applyDefaults d).Group⟩

/-- The mapping a Go map stands for: the value stored for `k`, if any.  Two
maps are the same mapping when they agree on every key. -/
def GoMap.entry {V : Type} (m : GoMap V) (k : GoString) : Option V :=
  match m with
  | none => none
  | some l => (l.find? (fun kv => kv.1 = k)).map Prod.snd

end CustomAlias

/-!
# carbonapi: the per-server limiter

A shallow embedding of `limiter/limiter.go`.  A `chan struct{}` carries no
data, so a buffered channel is its capacity and the number of elements in its
buffer.  A channel operation is atomic; a goroutine whose operation cannot
proceed is blocked, which leaves the limiter as it is, and the operation may
be tried again later in the schedule.
-/

namespace Limiter

open CustomAlias (GoString)

/-- A buffered `chan struct{}`: `make(chan struct{}, cap)` holding `len`
elements. -/
structure Chan where
  cap : Nat
  len : Nat
  deriving DecidableEq, Repr

/-- `ServerLimiter` (line 9), a `map[string]chan struct{}`: `none` is the nil
map, `some m` an allocated map.  A key bound to no entry reads as the nil
channel. -/
abbrev ServerLimiter := Option (List (GoString × Chan))

/-- The read `m[s]` of an allocated map: `none` is the nil channel. -/
def getChan : List (GoString × Chan) → GoString → Option Chan
  | [], _ => none
  | (k, ch) :: rest, s => if k = s then some ch else getChan rest s

/-- The assignment `m[s] = ch`. -/
def setChan : List (GoString × Chan) → GoString → Chan → List (GoString × Chan)
  | [], s, ch => [(s, ch)]
  | (k, c) :: rest, s, ch => if k = s then (k, ch) :: rest else (k, c) :: setChan rest s ch

/-- The effect `op` of a channel operation on the channel bound to `s`. -/
def updateChan (op : Chan → Chan) : List (GoString × Chan) → GoString → List (GoString × Chan)
  | [], _ => []
  | (k, c) :: rest, s =>
    if k = s then (k, op c) :: rest else (k, c) :: updateChan op rest s

/-- How `NewServerLimiter` ends: `make(chan struct{}, l)` panics for a
negative `l`. -/
inductive NewLimiterOutcome where
  | returned (sl : ServerLimiter)
  | makechanPanicked
  deriving DecidableEq, Repr

/-- The loop of `NewServerLimiter` (lines 19-21). -/
def makeChans (l : Int) : List GoString → List (GoString × Chan) → NewLimiterOutcome
  | [], m => .returned (some m)
  | s :: rest, m =>
    if l < 0 then .makechanPanicked
    else makeChans l rest (setChan m s ⟨l.toNat, 0⟩)

/-- `NewServerLimiter` (lines 12-24). -/
def NewServerLimiter (servers : List GoString) (l : Int) : NewLimiterOutcome :=
  if l = 0 then .returned none
  else makeChans l servers []

/-- How a call of `Enter` stands: it has returned `err` and left the limiter
`sl`, or no case of its `select` can proceed and it is blocked. -/
inductive EnterOutcome where
  | returned (err : Option GoString) (sl : ServerLimiter)
  | blocked
  deriving DecidableEq, Repr

/-- Whether the send on `sl[s]` can proceed: the channel is not nil
and its buffer is not full. -/
def canSend (m : List (GoString × Chan)) (s : GoString) : Bool :=
  match getChan m s with
  | some ch => decide (ch.len < ch.cap)
  | none => false

/-- `ServerLimiter.Enter` (lines 27-38).  `ctxDone` says whether `ctx.Done()`
is closed when the `select` runs; when both cases can proceed the run time
picks one, the send if `sendFirst`. -/
def Enter (sl : ServerLimiter) (ctxDone sendFirst : Bool) (s : GoString) : EnterOutcome :=
  match sl with
  | none => .returned none none
  | some m =>
    if canSend m s = true ∧ (ctxDone = false ∨ sendFirst = true) then
      .returned none (some (updateChan (fun ch => { ch with len := ch.len + 1 }) m s))
    else if ctxDone = true then
      .returned (some "timeout exceeded".toList) (some m)
    else .blocked

/-- How a call of `Leave` stands. -/
inductive LeaveOutcome where
  | returned (sl : ServerLimiter)
  | blocked
  deriving DecidableEq, Repr

/-- `ServerLimiter.Leave` (lines 41-47): the receive `<-sl[s]` proceeds when
the buffer holds an element; on an empty buffer or the nil channel it blocks. -/
def Leave (sl : ServerLimiter) (s : GoString) : LeaveOutcome :=
  match sl with
  | none => .returned none
  | some m =>
    match getChan m s with
    | some ch =>
      if 0 < ch.len then
        .returned (some (updateChan (fun ch => { ch with len := ch.len - 1 }) m s))
      else .blocked
    | none => .blocked

/-- The number of slots of `s` that are claimed: the elements in the buffer of
its channel. -/
def claimed (sl : ServerLimiter) (s : GoString) : Nat :=
  match sl with
  | none => 0
  | some m =>
    match getChan m s with
    | some ch => ch.len
    | none => 0

/-- One step of a schedule: a call of `Enter` or of `Leave` by some
goroutine. -/
inductive Event where
  | enter (s : GoString) (ctxDone sendFirst : Bool)
  | leave (s : GoString)
  deriving DecidableEq, Repr

/-- The limiter after one step; a blocked call leaves it as it is. -/
def step (sl : ServerLimiter) : Event → ServerLimiter
  | .enter s ctxDone sendFirst =>
    match Enter sl ctxDone sendFirst s with
    | .returned _ sl1 => sl1
    | .blocked => sl
  | .leave s =>
    match Leave sl s with
    | .returned sl1 => sl1
    | .blocked => sl

/-- The limiter after a sequence of steps. -/
def run (sl : ServerLimiter) (events : List Event) : ServerLimiter :=
  events.foldl step sl

/-- The invariant of a limiter made with limit `c` for `servers`: the map is
allocated, every server is bound to a channel, and every channel has capacity
`c` and at most `c` elements in its buffer. -/
def WellFormed (c : Nat) (servers : List GoString) (sl : ServerLimiter) : Prop :=
  ∃ m, sl = some m ∧ (∀ kv ∈ m, kv.2.cap = c ∧ kv.2.len ≤ c) ∧
    ∀ s ∈ servers, (getChan m s).isSome = true

end Limiter

namespace CustomAlias

/-! ## Lemmas on the `strings` calls -/

theorem stringsSplit_ne_nil (sep : Char) (s : GoString) : stringsSplit sep s ≠ [] := by
  induction s with
  | nil => simp [stringsSplit]
  | cons c t ih =>
    unfold stringsSplit
    split
    · simp
    · split <;> simp

theorem stringsSplit_length (sep : Char) (s : GoString) :
    (stringsSplit sep s).length = s.count sep + 1 := by
  induction s with
  | nil => simp [stringsSplit]
  | cons c t ih =>
    unfold stringsSplit
    by_cases h : c = sep
    · subst h
      simp [ih]
    · have hc : (c == sep) = false := by simpa using h
      rw [if_neg h, List.count_cons, hc]
      cases hs : stringsSplit sep t with
      | nil => exact absurd hs (stringsSplit_ne_nil sep t)
      | cons a r =>
        rw [hs] at ih
        simpa using ih

theorem stringsJoin_cons_cons (sep a b : GoString) (r : List GoString) :
    stringsJoin sep (a :: b :: r) = a ++ sep ++ stringsJoin sep (b :: r) := rfl

theorem stringsJoin_cons_char (sep c : Char) (h : GoString) (r : List GoString) :
    stringsJoin [sep] ((c :: h) :: r) = c :: stringsJoin [sep] (h :: r) := by
  cases r <;> simp [stringsJoin]

/-- Joining the segments of a path with the separator gives the path back. -/
theorem stringsJoin_stringsSplit (sep : Char) (s : GoString) :
    stringsJoin [sep] (stringsSplit sep s) = s := by
  induction s with
  | nil => simp [stringsSplit, stringsJoin]
  | cons c t ih =>
    unfold stringsSplit
    by_cases h : c = sep
    · subst h
      rw [if_pos rfl]
      cases hs : stringsSplit c t with
      | nil => exact absurd hs (stringsSplit_ne_nil c t)
      | cons a r =>
        rw [hs] at ih
        rw [stringsJoin_cons_cons, ih]
        simp
    · rw [if_neg h]
      cases hs : stringsSplit sep t with
      | nil => exact absurd hs (stringsSplit_ne_nil sep t)
      | cons a r =>
        rw [hs] at ih
        simp only []
        rw [stringsJoin_cons_char, ih]

/-- Replacing every `old` by `new` is splitting on `old` and joining with
`new`. -/
theorem stringsReplace_eq_join_split (old : Char) (new s : GoString) :
    stringsReplace old new s = stringsJoin new (stringsSplit old s) := by
  induction s with
  | nil => simp [stringsSplit, stringsJoin, stringsReplace]
  | cons c t ih =>
    unfold stringsSplit stringsReplace
    by_cases h : c = old
    · subst h
      rw [if_pos rfl, if_pos rfl]
      cases hs : stringsSplit c t with
      | nil => exact absurd hs (stringsSplit_ne_nil c t)
      | cons a r =>
        rw [hs] at ih
        rw [stringsJoin_cons_cons, ih]
        simp
    · rw [if_neg h, if_neg h]
      cases hs : stringsSplit old t with
      | nil => exact absurd hs (stringsSplit_ne_nil old t)
      | cons a r =>
        rw [hs] at ih
        simp only []
        rw [ih]
        cases r <;> simp [stringsJoin]

/-- No `old` is left after the replacement when `new` holds none. -/
theorem stringsReplace_not_mem (old : Char) (new s : GoString) (h : old ∉ new) :
    old ∉ stringsReplace old new s := by
  induction s with
  | nil => simp [stringsReplace]
  | cons c t ih =>
    unfold stringsReplace
    by_cases hc : c = old
    · rw [if_pos hc]
      simp [h, ih]
    · rw [if_neg hc]
      simp [ih, Ne.symm hc]

/-! ## Lemmas on the loop of `Do` -/

/-- The node `Do` computes for an in-range `field`. -/
theorem sliceTo_inRange {α : Type} (xs : List α) (high : Int) (h0 : 0 ≤ high)
    (h1 : high ≤ (xs.length : Int)) : sliceTo xs high = .returned (xs.take high.toNat) := by
  simp [sliceTo, h0, h1]

theorem sliceTo_outOfRange {α : Type} (xs : List α) (high : Int)
    (h : high < 0 ∨ (xs.length : Int) < high) :
    sliceTo xs high = .panicked .sliceBoundsOutOfRange := by
  unfold sliceTo
  rw [if_neg]
  omega

theorem rewriteLoop_map (xm : GoString → GoString) (field : Int) (cb nn : GoString)
    (out : MetricData → GoString) (ss : List MetricData)
    (h : ∀ s ∈ ss, rewriteSeries xm field cb nn s = .returned (out s)) (rv : List GoString) :
    rewriteLoop xm field cb nn ss rv = .returned (rv ++ ss.map out) := by
  induction ss generalizing rv with
  | nil => simp [rewriteLoop]
  | cons a rest ih =>
    unfold rewriteLoop
    rw [h a (by simp)]
    simp only []
    rw [ih (fun s hs => h s (by simp [hs]))]
    simp

theorem rewriteLoop_acc (xm : GoString → GoString) (field : Int) (cb nn : GoString)
    (ss : List MetricData) (rv : List GoString) :
    rewriteLoop xm field cb nn ss rv =
      match rewriteLoop xm field cb nn ss [] with
      | .returned o => .returned (rv ++ o)
      | .panicked p => .panicked p := by
  induction ss generalizing rv with
  | nil => simp [rewriteLoop]
  | cons a rest ih =>
    unfold rewriteLoop
    cases hs : rewriteSeries xm field cb nn a with
    | panicked p => rfl
    | returned t =>
      simp only []
      rw [ih (rv ++ [t]), ih ([] ++ [t])]
      cases rewriteLoop xm field cb nn rest [] <;> simp

theorem rewriteLoop_cons (xm : GoString → GoString) (field : Int) (cb nn : GoString)
    (a : MetricData) (rest : List MetricData) :
    rewriteLoop xm field cb nn (a :: rest) [] =
      match rewriteSeries xm field cb nn a with
      | .panicked p => .panicked p
      | .returned t =>
        match rewriteLoop xm field cb nn rest [] with
        | .returned o => .returned (t :: o)
        | .panicked p => .panicked p := by
  conv_lhs => unfold rewriteLoop
  cases hs : rewriteSeries xm field cb nn a with
  | panicked p => rfl
  | returned t =>
    simp only []
    rw [rewriteLoop_acc]
    cases rewriteLoop xm field cb nn rest [] <;> simp

/-- The loop returns exactly when every iteration returns, and then the output
holds the results of the iterations in order. -/
theorem rewriteLoop_returned_iff (xm : GoString → GoString) (field : Int) (cb nn : GoString)
    (ss : List MetricData) (out : List GoString) :
    rewriteLoop xm field cb nn ss [] = .returned out ↔
      ss.map (rewriteSeries xm field cb nn) = out.map Outcome.returned := by
  induction ss generalizing out with
  | nil =>
    cases out <;> simp [rewriteLoop]
  | cons a rest ih =>
    rw [rewriteLoop_cons]
    cases hs : rewriteSeries xm field cb nn a with
    | panicked p =>
      cases out <;> simp [hs]
    | returned t =>
      cases hr : rewriteLoop xm field cb nn rest [] with
      | panicked p =>
        cases out with
        | nil => simp [hs]
        | cons o os =>
          have hne := (ih os).not.mp (by rw [hr]; simp)
          simp [hs, hne]
      | returned o1 =>
        have h1 := (ih o1).mp hr
        cases out with
        | nil => simp [hs]
        | cons o os =>
          simp only [List.map_cons, List.cons.injEq, hs, Outcome.returned.injEq]
          constructor
          · rintro ⟨rfl, rfl⟩
            exact ⟨rfl, h1⟩
          · rintro ⟨rfl, h2⟩
            have := (ih os).mpr h2
            rw [hr] at this
            injection this with h3
            exact ⟨rfl, h3⟩

/-- What `Do` does once the series are fetched and the arguments are read. -/
theorem Do_of_args (g : SeriesFetch) (xm : GoString → GoString)
    (f : customAlias) (e : Expr) (arg0 : Expr)
    (more : List Expr) (ss : List MetricData) (field : Int) (cb nn : GoString)
    (he : e.Args = arg0 :: more) (hg : g arg0 = .ok ss) (hf : e.GetIntArg 1 = .ok field)
    (hc : e.GetStringArg 2 = .ok cb) (hn : getNewName e = .ok nn) :
    Do g xm f e =
      match rewriteLoop xm field cb nn ss [] with
      | .panicked p => .panicked p
      | .returned rv => .returned ⟨true, rv, none⟩ := by
  unfold Do
  rw [he]
  simp only [hg, hf, hc, hn]

/-! ## The claims on `Do` -/

/-- C1: without a rename argument and with `0 ≤ N ≤` the number of segments of
every fetched metric path, `Do` succeeds and the output for each series is the
callback with every `%` replaced by the first `N` segments joined with `.`. -/
theorem do_callback_substitution (g : SeriesFetch) (xm : GoString → GoString) (f : customAlias)
    (t : GoString) (arg0 : Expr) (N : Int) (cb : GoString) (ss : List MetricData)
    (hg : g arg0 = .ok ss)
    (hN : ∀ s ∈ ss, 0 ≤ N ∧ N ≤ ((stringsSplit '.' (xm s.Name)).length : Int)) :
    Do g xm f (.func t [arg0, .const N, .str cb]) =
      .returned ⟨true,
        ss.map (fun s =>
          stringsReplace '%' (stringsJoin ['.'] ((stringsSplit '.' (xm s.Name)).take N.toNat)) cb),
        none⟩ := by
  rw [Do_of_args g xm f (.func t [arg0, .const N, .str cb]) arg0 [.const N, .str cb] ss N cb []
    rfl hg rfl rfl rfl]
  rw [rewriteLoop_map xm N cb [] (fun s =>
    stringsReplace '%' (stringsJoin ['.'] ((stringsSplit '.' (xm s.Name)).take N.toNat)) cb) ss]
  · simp
  · intro s hs
    obtain ⟨h0, h1⟩ := hN s hs
    simp [rewriteSeries, sliceTo_inRange _ _ h0 h1]

/-- C1 at `N = 2`, metric path `a.b.c.d` and callback `seriesAbove(%,0)`: the
output is `seriesAbove(a.b,0)`. -/
theorem do_callback_substitution_witness :
    Do (fun _ => .ok [⟨"a.b.c.d".toList⟩]) id ⟨none, none⟩
        (.func "myAlias".toList [.name "a.*.*.*".toList, .const 2, .str "seriesAbove(%,0)".toList])
      = .returned ⟨true, ["seriesAbove(a.b,0)".toList], none⟩ :=
  do_callback_substitution (fun _ => .ok [⟨"a.b.c.d".toList⟩]) id ⟨none, none⟩ "myAlias".toList
    (.name "a.*.*.*".toList) 2 "seriesAbove(%,0)".toList [⟨"a.b.c.d".toList⟩] rfl (by decide)

/-- C2: with a non-empty rename as the fourth argument and `N` in range, the
output for each series is `alias(<newExpr>,"<R>")`, where `newExpr` is the
callback and `R` the rename, each with every `%` replaced by the node. -/
theorem do_rename_wraps_alias (g : SeriesFetch) (xm : GoString → GoString) (f : customAlias)
    (t : GoString) (arg0 : Expr) (N : Int) (cb rn : GoString) (ss : List MetricData)
    (hg : g arg0 = .ok ss) (hrn : rn ≠ [])
    (hN : ∀ s ∈ ss, 0 ≤ N ∧ N ≤ ((stringsSplit '.' (xm s.Name)).length : Int)) :
    Do g xm f (.func t [arg0, .const N, .str cb, .str rn]) =
      .returned ⟨true,
        ss.map (fun s =>
          "alias(".toList
            ++ stringsReplace '%'
                (stringsJoin ['.'] ((stringsSplit '.' (xm s.Name)).take N.toNat)) cb
            ++ ",\"".toList
            ++ stringsReplace '%'
                (stringsJoin ['.'] ((stringsSplit '.' (xm s.Name)).take N.toNat)) rn
            ++ "\")".toList),
        none⟩ := by
  rw [Do_of_args g xm f (.func t [arg0, .const N, .str cb, .str rn]) arg0
    [.const N, .str cb, .str rn] ss N cb rn rfl hg rfl rfl rfl]
  rw [rewriteLoop_map xm N cb rn (fun s =>
    "alias(".toList
      ++ stringsReplace '%' (stringsJoin ['.'] ((stringsSplit '.' (xm s.Name)).take N.toNat)) cb
      ++ ",\"".toList
      ++ stringsReplace '%' (stringsJoin ['.'] ((stringsSplit '.' (xm s.Name)).take N.toNat)) rn
      ++ "\")".toList) ss]
  · simp
  · intro s hs
    obtain ⟨h0, h1⟩ := hN s hs
    simp [rewriteSeries, sliceTo_inRange _ _ h0 h1, hrn, sprintfAlias]

/-- C2 at node `a.b`, callback `seriesAbove(%,0)` and rename `renamed-%`: the
output is `alias(seriesAbove(a.b,0),"renamed-a.b")`. -/
theorem do_rename_wraps_alias_witness :
    Do (fun _ => .ok [⟨"a.b.c.d".toList⟩]) id ⟨none, none⟩
        (.func "myAlias".toList [.name "a.*.*.*".toList, .const 2,
          .str "seriesAbove(%,0)".toList, .str "renamed-%".toList])
      = .returned ⟨true, ["alias(seriesAbove(a.b,0),\"renamed-a.b\")".toList], none⟩ :=
  do_rename_wraps_alias (fun _ => .ok [⟨"a.b.c.d".toList⟩]) id ⟨none, none⟩ "myAlias".toList
    (.name "a.*.*.*".toList) 2 "seriesAbove(%,0)".toList "renamed-%".toList
    [⟨"a.b.c.d".toList⟩] rfl (by decide) (by decide)

/-- A successful `Do` has read its arguments and run its loop to the end. -/
theorem Do_success_inv (g : SeriesFetch) (xm : GoString → GoString)
    (f : customAlias) (e : Expr) (arg0 : Expr)
    (more : List Expr) (ss : List MetricData) (out : List GoString)
    (he : e.Args = arg0 :: more) (hg : g arg0 = .ok ss)
    (hdo : Do g xm f e = .returned ⟨true, out, none⟩) :
    ∃ field cb nn, e.GetIntArg 1 = .ok field ∧ e.GetStringArg 2 = .ok cb ∧
      getNewName e = .ok nn ∧ rewriteLoop xm field cb nn ss [] = .returned out := by
  unfold Do at hdo
  rw [he] at hdo
  simp only [hg] at hdo
  cases hf : e.GetIntArg 1 with
  | error err => simp [hf] at hdo
  | ok field =>
    cases hc : e.GetStringArg 2 with
    | error err => simp [hf, hc] at hdo
    | ok cb =>
      cases hn : getNewName e with
      | error err => simp [hf, hc, hn] at hdo
      | ok nn =>
        cases hl : rewriteLoop xm field cb nn ss [] with
        | panicked p => simp [hf, hc, hn, hl] at hdo
        | returned rv =>
          simp [hf, hc, hn, hl] at hdo
          exact ⟨field, cb, nn, rfl, rfl, rfl, by rw [hl, hdo]⟩

/-- C3: a successful `Do` is an order-preserving element-wise map of the
fetched series: the output has one element per series, the `i`-th output is
the single output of `Do` on the one-element list of the `i`-th series, and
the output on a concatenation is the concatenation of the outputs. -/
theorem do_elementwise (g : SeriesFetch) (xm : GoString → GoString)
    (f : customAlias) (e : Expr) (arg0 : Expr)
    (more : List Expr) (ss : List MetricData) (out : List GoString)
    (he : e.Args = arg0 :: more) (hg : g arg0 = .ok ss)
    (hdo : Do g xm f e = .returned ⟨true, out, none⟩) :
    out.length = ss.length ∧
    (∀ (i : Nat) (hi : i < ss.length) (ho : i < out.length) (g1 : SeriesFetch),
      g1 arg0 = .ok [ss.get ⟨i, hi⟩] →
        Do g1 xm f e = .returned ⟨true, [out.get ⟨i, ho⟩], none⟩) ∧
    (∀ (s1 s2 : List MetricData) (g1 g2 : SeriesFetch),
      ss = s1 ++ s2 → g1 arg0 = .ok s1 → g2 arg0 = .ok s2 →
        ∃ o1 o2, Do g1 xm f e = .returned ⟨true, o1, none⟩ ∧
          Do g2 xm f e = .returned ⟨true, o2, none⟩ ∧ out = o1 ++ o2) := by
  obtain ⟨field, cb, nn, hf, hc, hn, hl⟩ := Do_success_inv g xm f e arg0 more ss out he hg hdo
  have hmap := (rewriteLoop_returned_iff xm field cb nn ss out).mp hl
  have hlen : out.length = ss.length := by
    have := congrArg List.length hmap
    simpa using this.symm
  refine ⟨hlen, ?_, ?_⟩
  · intro i hi ho g1 hg1
    rw [Do_of_args g1 xm f e arg0 more [ss.get ⟨i, hi⟩] field cb nn he hg1 hf hc hn]
    have hget : rewriteSeries xm field cb nn (ss.get ⟨i, hi⟩)
        = Outcome.returned (out.get ⟨i, ho⟩) := by
      have h1 := congrArg (fun l => l[i]?) hmap
      simpa [List.getElem?_eq_getElem hi, List.getElem?_eq_getElem ho] using h1
    have hone : rewriteLoop xm field cb nn [ss.get ⟨i, hi⟩] [] = .returned [out.get ⟨i, ho⟩] := by
      rw [rewriteLoop_returned_iff]
      simp only [List.map_cons, List.map_nil, hget]
    rw [hone]
  · intro s1 s2 g1 g2 hss hg1 hg2
    subst hss
    rw [List.map_append] at hmap
    have h1 : s1.map (rewriteSeries xm field cb nn)
        = (out.take s1.length).map Outcome.returned := by
      have := congrArg (List.take s1.length) hmap
      simpa [List.map_take] using this
    have h2 : s2.map (rewriteSeries xm field cb nn)
        = (out.drop s1.length).map Outcome.returned := by
      have := congrArg (List.drop s1.length) hmap
      simpa [List.map_drop] using this
    refine ⟨out.take s1.length, out.drop s1.length, ?_, ?_, (List.take_append_drop _ _).symm⟩
    · rw [Do_of_args g1 xm f e arg0 more s1 field cb nn he hg1 hf hc hn,
        (rewriteLoop_returned_iff xm field cb nn s1 _).mpr h1]
    · rw [Do_of_args g2 xm f e arg0 more s2 field cb nn he hg2 hf hc hn,
        (rewriteLoop_returned_iff xm field cb nn s2 _).mpr h2]

/-- The witness of C3: two series, each rewritten on its own. -/
theorem do_elementwise_witness :
    Do (fun _ => .ok [⟨"a.b.c.d".toList⟩, ⟨"x.y.z".toList⟩]) id ⟨none, none⟩
        (.func "myAlias".toList [.name "*.*.*".toList, .const 2, .str "f(%)".toList])
      = .returned ⟨true, ["f(a.b)".toList, "f(x.y)".toList], none⟩ ∧
    ["f(a.b)".toList, "f(x.y)".toList].length = 2 ∧
    Do (fun _ => .ok [⟨"x.y.z".toList⟩]) id ⟨none, none⟩
        (.func "myAlias".toList [.name "*.*.*".toList, .const 2, .str "f(%)".toList])
      = .returned ⟨true, ["f(x.y)".toList], none⟩ :=
  ⟨by decide,
   (do_elementwise (fun _ => .ok [⟨"a.b.c.d".toList⟩, ⟨"x.y.z".toList⟩]) id ⟨none, none⟩
      (.func "myAlias".toList [.name "*.*.*".toList, .const 2, .str "f(%)".toList])
      (.name "*.*.*".toList) [.const 2, .str "f(%)".toList]
      [⟨"a.b.c.d".toList⟩, ⟨"x.y.z".toList⟩] ["f(a.b)".toList, "f(x.y)".toList]
      rfl rfl (by decide)).1,
   (do_elementwise (fun _ => .ok [⟨"a.b.c.d".toList⟩, ⟨"x.y.z".toList⟩]) id ⟨none, none⟩
      (.func "myAlias".toList [.name "*.*.*".toList, .const 2, .str "f(%)".toList])
      (.name "*.*.*".toList) [.const 2, .str "f(%)".toList]
      [⟨"a.b.c.d".toList⟩, ⟨"x.y.z".toList⟩] ["f(a.b)".toList, "f(x.y)".toList]
      rfl rfl (by decide)).2.1 1 (by decide) (by decide) (fun _ => .ok [⟨"x.y.z".toList⟩]) rfl⟩

/-- C4 as stated fails: with `N = 3` on the two-segment path `a.b`, and with
`N = -1`, `Do` panics in the slice expression instead of clamping `N`. -/
theorem do_node_clamped_counterexample :
    Do (fun _ => .ok [⟨"a.b".toList⟩]) id ⟨none, none⟩
        (.func "myAlias".toList [.name "a.*".toList, .const 3, .str "f(%)".toList])
      = .panicked .sliceBoundsOutOfRange ∧
    Do (fun _ => .ok [⟨"a.b".toList⟩]) id ⟨none, none⟩
        (.func "myAlias".toList [.name "a.*".toList, .const (-1), .str "f(%)".toList])
      = .panicked .sliceBoundsOutOfRange := by
  constructor <;> decide

/-- C4, amended: for `0 ≤ N ≤` the number of segments of every fetched metric
path, `Do` does not panic and the node it substitutes is the join of the first
`min(max(N,0), segmentCount)` segments; `N = segmentCount` gives the whole
metric path and `N = 0` the empty node. -/
theorem do_node_in_range (g : SeriesFetch) (xm : GoString → GoString) (f : customAlias) (e : Expr)
    (arg0 : Expr) (more : List Expr) (ss : List MetricData) (N : Int) (cb nn : GoString)
    (he : e.Args = arg0 :: more) (hg : g arg0 = .ok ss) (hf : e.GetIntArg 1 = .ok N)
    (hc : e.GetStringArg 2 = .ok cb) (hn : getNewName e = .ok nn)
    (hN : ∀ s ∈ ss, 0 ≤ N ∧ N ≤ ((stringsSplit '.' (xm s.Name)).length : Int)) :
    Do g xm f e =
      .returned ⟨true,
        ss.map (fun s =>
          if nn ≠ [] then
            sprintfAlias (stringsReplace '%' (specClampedNode (xm s.Name) N) cb)
              (stringsReplace '%' (specClampedNode (xm s.Name) N) nn)
          else stringsReplace '%' (specClampedNode (xm s.Name) N) cb),
        none⟩ ∧
    (∀ s ∈ ss, N = ((stringsSplit '.' (xm s.Name)).length : Int) →
      specClampedNode (xm s.Name) N = xm s.Name) ∧
    (N = 0 → ∀ s ∈ ss, specClampedNode (xm s.Name) N = []) := by
  refine ⟨?_, ?_, ?_⟩
  · rw [Do_of_args g xm f e arg0 more ss N cb nn he hg hf hc hn]
    rw [rewriteLoop_map xm N cb nn (fun s =>
      if nn ≠ [] then
        sprintfAlias (stringsReplace '%' (specClampedNode (xm s.Name) N) cb)
          (stringsReplace '%' (specClampedNode (xm s.Name) N) nn)
      else stringsReplace '%' (specClampedNode (xm s.Name) N) cb) ss]
    · simp
    · intro s hs
      obtain ⟨h0, h1⟩ := hN s hs
      have hclamp : min (max N 0) ((stringsSplit '.' (xm s.Name)).length : Int) = N := by
        omega
      simp only [rewriteSeries, sliceTo_inRange _ _ h0 h1, specClampedNode, hclamp]
      split <;> rfl
  · intro s _ hlen
    have hclamp : min (max N 0) ((stringsSplit '.' (xm s.Name)).length : Int)
        = ((stringsSplit '.' (xm s.Name)).length : Int) := by omega
    simp only [specClampedNode, hclamp, Int.toNat_ofNat, List.take_length]
    exact stringsJoin_stringsSplit '.' (xm s.Name)
  · intro h0 s _
    subst h0
    simp [specClampedNode, stringsJoin]

/-- The witness of C4: `N = 2` on `a.b`, the whole path. -/
theorem do_node_in_range_witness :
    Do (fun _ => .ok [⟨"a.b".toList⟩]) id ⟨none, none⟩
        (.func "myAlias".toList [.name "a.*".toList, .const 2, .str "f(%)".toList])
      = .returned ⟨true, ["f(a.b)".toList], none⟩ :=
  (do_node_in_range (fun _ => .ok [⟨"a.b".toList⟩]) id ⟨none, none⟩
    (.func "myAlias".toList [.name "a.*".toList, .const 2, .str "f(%)".toList])
    (.name "a.*".toList) [.const 2, .str "f(%)".toList] [⟨"a.b".toList⟩] 2 "f(%)".toList []
    rfl rfl rfl rfl rfl (by decide)).1

/-- C5 fails on an invocation without any argument: `e.Args()[0]` panics with
an index out of range before any argument is checked. -/
theorem do_no_arguments_panics (g : SeriesFetch) (xm : GoString → GoString)
    (f : customAlias) (t : GoString) :
    Do g xm f (.func t []) = .panicked .indexOutOfRange := by
  rfl

/-- With at least one argument, a missing callback or a missing or
non-numeric `N` makes `Do` return an error and no output. -/
theorem do_missing_argument_error (g : SeriesFetch) (xm : GoString → GoString)
    (f : customAlias) (e : Expr)
    (arg0 : Expr) (more : List Expr) (he : e.Args = arg0 :: more)
    (h : more.length < 2 ∨ ∀ v, more.head? ≠ some (.const v)) :
    ∃ err, Do g xm f e = .returned ⟨false, [], some err⟩ := by
  unfold Do
  rw [he]
  cases hg : g arg0 with
  | error err => exact ⟨err, by simp only [hg]⟩
  | ok ss =>
    cases hf : e.GetIntArg 1 with
    | error err => exact ⟨err, by simp only [hg, hf]⟩
    | ok field =>
      cases hc : e.GetStringArg 2 with
      | error err => exact ⟨err, by simp only [hg, hf, hc]⟩
      | ok cb =>
        exfalso
        unfold Expr.GetIntArg at hf
        unfold Expr.GetStringArg at hc
        rw [he] at hf hc
        rcases h with h | h
        · match more, h with
          | [], _ => simp at hf
          | [_], _ => simp at hc
        · match more, h with
          | [], _ => simp at hf
          | m :: _, h =>
            cases m with
            | const v => exact h v rfl
            | name _ => simp at hf
            | str _ => simp at hf
            | func _ _ => simp at hf

/-- C6: when the series fetch fails with `err` for the first argument, `Do`
returns that `err` unchanged, with no output and the handled flag false,
whatever the remaining arguments are. -/
theorem do_fetch_error_verbatim (g : SeriesFetch) (xm : GoString → GoString)
    (f : customAlias) (e : Expr)
    (arg0 : Expr) (more : List Expr) (err : GoError)
    (he : e.Args = arg0 :: more) (hg : g arg0 = .error err) :
    Do g xm f e = .returned ⟨false, [], some err⟩ := by
  unfold Do
  rw [he]
  simp only [hg]

/-- The witness of C6: the fetch fails on an invocation that also lacks `N`
and the callback. -/
theorem do_fetch_error_verbatim_witness :
    Do (fun _ => .error (.other "fetch failed".toList)) id ⟨none, none⟩
        (.func "myAlias".toList [.name "a.*".toList])
      = .returned ⟨false, [], some (.other "fetch failed".toList)⟩ :=
  do_fetch_error_verbatim (fun _ => .error (.other "fetch failed".toList)) id ⟨none, none⟩
    (.func "myAlias".toList [.name "a.*".toList]) (.name "a.*".toList) []
    (.other "fetch failed".toList) rfl rfl

/-! ## Lemmas on `New` -/

/-- Every iteration that does not panic appends the record of its alias. -/
theorem newStep_res (tp : GoString → GoString → Bool) (n : GoString) (d : aliasConfig)
    (st st1 : NewState) (h : newStep tp n d st = .returned st1) :
    st1.res = st.res ++ [n] := by
  unfold newStep at h
  simp only [] at h
  split at h
  · injection h with h
    rw [← h]
  · split at h
    · exact absurd h (by simp)
    · split at h
      · exact absurd h (by simp)
      · injection h with h
        rw [← h]

theorem newLoop_res (tp : GoString → GoString → Bool) (as : List (GoString × aliasConfig))
    (st st1 : NewState) (h : newLoop tp as st = .returned st1) :
    st1.res = st.res ++ as.map Prod.fst := by
  induction as generalizing st with
  | nil =>
    unfold newLoop at h
    injection h with h
    simp [h]
  | cons a rest ih =>
    obtain ⟨n, d⟩ := a
    unfold newLoop at h
    cases hs : newStep tp n d st with
    | panicked p => simp [hs] at h
    | returned st2 =>
      simp only [hs] at h
      rw [ih st2 h, newStep_res tp n d st st2 hs]
      simp

/-- On an engine whose `description` map is nil, an iteration returns only for
an alias whose template fails to parse, and it leaves the engine as it is. -/
theorem newStep_nil_description (tp : GoString → GoString → Bool) (n : GoString)
    (d : aliasConfig) (st st1 : NewState) (hnil : st.f.description = none)
    (h : newStep tp n d st = .returned st1) :
    tp n (applyDefaults d).Template = false ∧ st1.f = st.f := by
  unfold newStep at h
  simp only [] at h
  split at h
  · rename_i hp
    injection h with h
    exact ⟨hp, by rw [← h]⟩
  · split at h
    · exact absurd h (by simp)
    · simp only [hnil, GoMap.assign] at h
      exact absurd h (by simp)

theorem newLoop_nil_description (tp : GoString → GoString → Bool)
    (as : List (GoString × aliasConfig)) (st st1 : NewState)
    (hnil : st.f.description = none) (h : newLoop tp as st = .returned st1) :
    (∀ a ∈ as, tp a.1 (applyDefaults a.2).Template = false) ∧ st1.f = st.f := by
  induction as generalizing st with
  | nil =>
    unfold newLoop at h
    injection h with h
    simp [h]
  | cons a rest ih =>
    obtain ⟨n, d⟩ := a
    unfold newLoop at h
    cases hs : newStep tp n d st with
    | panicked p => simp [hs] at h
    | returned st2 =>
      simp only [hs] at h
      obtain ⟨hp, hf⟩ := newStep_nil_description tp n d st st2 hnil hs
      obtain ⟨hrest, hf2⟩ := ih st2 (by rw [hf]; exact hnil) h
      refine ⟨?_, by rw [hf2, hf]⟩
      intro a ha
      rcases List.mem_cons.mp ha with rfl | ha
      · exact hp
      · exact hrest a ha

/-- When `New` returns on an enabled configuration, no template of the
configuration parsed: the first alias whose template parses makes `New`
panic, on `d.Args[0]` or on the assignment to the nil `description` map. -/
theorem New_returned_no_template_parses (tp : GoString → GoString → Bool)
    (cfg : customAliasConfig) (res : List RewriteFunctionMetadata) (log : List LogEntry)
    (hen : cfg.Enabled = true) (h : New tp (.decoded cfg) = .returned res log) :
    ∀ a ∈ cfg.Aliases, tp a.1 (applyDefaults a.2).Template = false := by
  unfold New at h
  simp only [hen] at h
  by_cases hl : cfg.Aliases.length = 0
  · have : cfg.Aliases = [] := List.length_eq_zero.mp hl
    simp [this]
  · simp only [hl] at h
    cases hloop : newLoop tp cfg.Aliases ⟨[], ⟨none, none⟩, []⟩ with
    | panicked p => simp [hloop] at h
    | returned st =>
      exact (newLoop_nil_description tp cfg.Aliases _ st rfl hloop).1

/-! ## The claims on `New` -/

/-- C7 as stated fails: an alias whose template does not parse still gets its
registration record. -/
theorem new_records_iff_compiled_counterexample :
    (New (fun _ t => t != "\x7b\x7b".toList)
      (.decoded ⟨true, [("broken".toList,
        ⟨false, "\x7b\x7b".toList, [⟨"seriesList".toList, true, 1⟩], [], [], []⟩)]⟩)).names
      = some ["broken".toList] ∧
    (fun (_ : GoString) (t : GoString) => t != "\x7b\x7b".toList)
      "broken".toList "\x7b\x7b".toList = false := by
  constructor <;> decide

/-- C7, amended: the record of an alias is appended before its template is
parsed, so whenever `New` returns on an enabled configuration its records are
exactly one per configured alias, in the order of iteration, whether or not
the template of the alias parsed. -/
theorem new_records_all_aliases (tp : GoString → GoString → Bool) (cfg : customAliasConfig)
    (res : List RewriteFunctionMetadata) (log : List LogEntry)
    (hen : cfg.Enabled = true) (h : New tp (.decoded cfg) = .returned res log) :
    res.map (fun r => r.Name) = cfg.Aliases.map Prod.fst := by
  unfold New at h
  simp only [hen] at h
  by_cases hl : cfg.Aliases.length = 0
  · have hnil : cfg.Aliases = [] := List.length_eq_zero.mp hl
    simp [hnil] at h
    simp [hnil, h.1]
  · simp only [hl] at h
    cases hloop : newLoop tp cfg.Aliases ⟨[], ⟨none, none⟩, []⟩ with
    | panicked p => simp [hloop] at h
    | returned st =>
      simp [hloop] at h
      have hres := newLoop_res tp cfg.Aliases _ st hloop
      rw [← h.1]
      simp [hres, Function.comp_def]

/-- The witness of C7: two aliases, neither template parses, both are
registered. -/
theorem new_records_all_aliases_witness :
    New (fun _ t => t != "\x7b\x7b".toList)
      (.decoded ⟨true, [
        ("broken".toList, ⟨false, "\x7b\x7b".toList, [⟨"seriesList".toList, true, 1⟩], [], [], []⟩),
        ("alsoBroken".toList, ⟨false, "\x7b\x7b".toList, [], [], [], []⟩)]⟩)
      = .returned
          [⟨"broken".toList, ⟨none, none⟩⟩, ⟨"alsoBroken".toList, ⟨none, none⟩⟩]
          [.warn "failed to parse template for alias" "broken".toList,
           .warn "failed to parse template for alias" "alsoBroken".toList] ∧
    [(⟨"broken".toList, ⟨none, none⟩⟩ : RewriteFunctionMetadata),
      ⟨"alsoBroken".toList, ⟨none, none⟩⟩].map (fun r => r.Name)
      = ["broken".toList, "alsoBroken".toList] :=
  ⟨by decide,
   new_records_all_aliases (fun _ t => t != "\x7b\x7b".toList)
    ⟨true, [
      ("broken".toList, ⟨false, "\x7b\x7b".toList, [⟨"seriesList".toList, true, 1⟩], [], [], []⟩),
      ("alsoBroken".toList, ⟨false, "\x7b\x7b".toList, [], [], [], []⟩)]⟩
    [⟨"broken".toList, ⟨none, none⟩⟩, ⟨"alsoBroken".toList, ⟨none, none⟩⟩]
    [.warn "failed to parse template for alias" "broken".toList,
     .warn "failed to parse template for alias" "alsoBroken".toList]
    rfl (by decide)⟩

/-- C8 fails on an enabled configuration with one well-formed alias: `New`
does not complete, the assignment `f.description[n] = ...` panics because the
map of `&customAlias{}` is nil. -/
theorem new_valid_alias_panics :
    New (fun _ t => t != "\x7b\x7b".toList)
      (.decoded ⟨true, [("aboveZero".toList,
        ⟨false, "seriesAbove(%,0)".toList, [⟨"seriesList".toList, true, 1⟩], [], [], []⟩)]⟩)
      = .panicked .nilMapAssignment := by
  decide

/-- C9 fails on an alias with an empty `Args` list whose template parses:
`d.Args[0]` panics with an index out of range. -/
theorem new_zero_args_panics :
    New (fun _ t => t != "\x7b\x7b".toList)
      (.decoded ⟨true, [("noArgs".toList,
        ⟨false, "seriesAbove(%,0)".toList, [], [], [], []⟩)]⟩)
      = .panicked .indexOutOfRange := by
  decide

/-- C10: when `enabled` is false or the alias map is empty, `New` returns no
registration record: it neither exits through `logger.Fatal` nor panics, and
logs one informational message. -/
theorem new_disabled_or_empty (tp : GoString → GoString → Bool) (cfg : customAliasConfig)
    (h : cfg.Enabled = false ∨ cfg.Aliases = []) :
    ∃ msg, New tp (.decoded cfg) = .returned [] [.info msg] := by
  unfold New
  by_cases hen : cfg.Enabled = false
  · exact ⟨_, by simp only [hen]; rfl⟩
  · rcases h with h | h
    · exact absurd h hen
    · exact ⟨_, by simp only [hen, h]; rfl⟩

/-- The witness of C10: a disabled configuration that lists an alias, and an
enabled one that lists none. -/
theorem new_disabled_or_empty_witness :
    (∃ msg, New (fun _ _ => true)
      (.decoded ⟨false, [("aboveZero".toList,
        ⟨false, "seriesAbove(%,0)".toList, [⟨"seriesList".toList, true, 1⟩], [], [], []⟩)]⟩)
      = .returned [] [.info msg]) ∧
    (∃ msg, New (fun _ _ => true) (.decoded ⟨true, []⟩) = .returned [] [.info msg]) :=
  ⟨new_disabled_or_empty (fun _ _ => true) _ (Or.inl rfl),
   new_disabled_or_empty (fun _ _ => true) _ (Or.inr rfl)⟩

/-! ## The documentation entries -/

/-- The loop over `d.Args[1:]` appends the parameters of the arguments in
order. -/
theorem appendArgs_snd (rest : List arguments) (function : GoString)
    (params : List FunctionParam) :
    (appendArgs rest (function, params)).2 = params ++ rest.map toParam := by
  induction rest generalizing function params with
  | nil => simp [appendArgs]
  | cons p rest ih =>
    unfold appendArgs
    rw [ih]
    simp

theorem buildSignature_params (n : GoString) (d : aliasConfig) (hargs : d.Args ≠ []) :
    ∃ function, buildSignature n d = .returned (function, d.Args.map toParam) := by
  unfold buildSignature
  cases hd : d.Args with
  | nil => exact absurd hd hargs
  | cons a0 rest =>
    simp only []
    have h := appendArgs_snd rest ((n ++ "(".toList) ++ a0.Name) ([] ++ [toParam a0])
    cases hr : appendArgs rest ((n ++ "(".toList) ++ a0.Name, [] ++ [toParam a0]) with
    | mk fn ps =>
      rw [hr] at h
      simp only [] at h
      exact ⟨fn ++ [')'], by rw [h]; simp⟩

theorem applyDefaults_fields (d : aliasConfig) :
    (applyDefaults d).Args = d.Args ∧ (applyDefaults d).Template = d.Template ∧
    (applyDefaults d).Group = (if d.Group = [] then "CustomAlias".toList else d.Group) ∧
    (applyDefaults d).Module
      = (if d.Module = [] then "graphite.render.functions".toList else d.Module) ∧
    (applyDefaults d).Description
      = (if d.Description = [] then d.Template else d.Description) := by
  unfold applyDefaults
  by_cases hg : d.Group = [] <;> by_cases hm : d.Module = [] <;>
    by_cases hd : d.Description = [] <;> simp [hg, hm, hd]

/-- The operand of the assignment of line 130: for an alias `n` whose template
parses and that has at least one argument, the loop body of `New` tries to
assign to `f.description[n]` the entry with `Name = n`, the parameters of
`d.Args` one for one in order, and the group, module and description of the
configuration, or `CustomAlias`, `graphite.render.functions` and the template
where they are unset.  On the nil map the assignment panics and the entry is
lost. -/
theorem new_entry_fields (tp : GoString → GoString → Bool) (n : GoString) (d : aliasConfig)
    (st : NewState) (hp : tp n d.Template = true) (hargs : d.Args ≠ []) :
    newStep tp n d st =
      match st.f.description.assign n
        ⟨n,
         d.Args.map (fun a => ⟨a.Name, a.Required, a.Typ⟩),
         if d.Description = [] then d.Template else d.Description,
         if d.Module = [] then "graphite.render.functions".toList else d.Module,
         if d.Group = [] then "CustomAlias".toList else d.Group⟩ with
      | .panicked p => .panicked p
      | .returned m => .returned ⟨st.res ++ [n], ⟨st.f.configuredAliases, m⟩, st.log⟩ := by
  obtain ⟨hA, hT, hG, hM, hD⟩ := applyDefaults_fields d
  obtain ⟨fn, hsig⟩ := buildSignature_params n (applyDefaults d) (by rw [hA]; exact hargs)
  unfold newStep
  simp only [hT, hp, hsig, hA, hG, hM, hD]
  rfl

/-- An instance of `new_entry_fields` on an allocated map, a state the loop of
`New` is never in: an alias with two arguments and no group, module or
description. -/
theorem new_entry_fields_witness :
    newStep (fun _ _ => true) "aboveZero".toList
        ⟨false, "seriesAbove(%,0)".toList,
          [⟨"seriesList".toList, true, 1⟩, ⟨"nodes".toList, false, 2⟩], [], [], []⟩
        ⟨[], ⟨none, some []⟩, []⟩
      = .returned ⟨["aboveZero".toList],
          ⟨none, some [("aboveZero".toList,
            ⟨"aboveZero".toList,
             [⟨"seriesList".toList, true, 1⟩, ⟨"nodes".toList, false, 2⟩],
             "seriesAbove(%,0)".toList,
             "graphite.render.functions".toList,
             "CustomAlias".toList⟩)]⟩,
          []⟩ :=
  new_entry_fields (fun _ _ => true) "aboveZero".toList
    ⟨false, "seriesAbove(%,0)".toList,
      [⟨"seriesList".toList, true, 1⟩, ⟨"nodes".toList, false, 2⟩], [], [], []⟩
    ⟨[], ⟨none, some []⟩, []⟩ rfl (by decide)

/-- C11 fails on an enabled configuration whose alias has a parsing template,
two arguments and no group, module or description: `New` panics on the
assignment to the nil `description` map (line 130), so no documentation entry
exists for the alias and `Description` is never reached. -/
theorem new_entry_never_stored :
    New (fun _ t => t != "\x7b\x7b".toList)
      (.decoded ⟨true, [("aboveZero".toList,
        ⟨false, "seriesAbove(%,0)".toList,
          [⟨"seriesList".toList, true, 1⟩, ⟨"nodes".toList, false, 2⟩], [], [], []⟩)]⟩)
      = .panicked .nilMapAssignment ∧
    (New (fun _ t => t != "\x7b\x7b".toList)
      (.decoded ⟨true, [("aboveZero".toList,
        ⟨false, "seriesAbove(%,0)".toList,
          [⟨"seriesList".toList, true, 1⟩, ⟨"nodes".toList, false, 2⟩], [], [], []⟩)]⟩)).Description
      = none := by
  constructor <;> decide

/-! ## The documentation mapping and the order of iteration -/

theorem entry_assign {V : Type} (l : List (GoString × V)) (n k : GoString) (v : V) :
    GoMap.entry (some (l.filter (fun kv => kv.1 ≠ n) ++ [(n, v)])) k
      = if k = n then some v else GoMap.entry (some l) k := by
  induction l with
  | nil =>
    by_cases hk : k = n
    · simp [GoMap.entry, hk]
    · have hnk : ¬ n = k := fun h => hk h.symm
      simp [GoMap.entry, hk, hnk]
  | cons hd rest ih =>
    obtain ⟨a, b⟩ := hd
    simp only [GoMap.entry] at ih ⊢
    by_cases han : a = n
    · have hf : List.filter (fun kv : GoString × V => decide (kv.1 ≠ n)) ((a, b) :: rest)
          = List.filter (fun kv : GoString × V => decide (kv.1 ≠ n)) rest := by
        simp [List.filter_cons, han]
      rw [hf, ih]
      by_cases hk : k = n
      · rw [if_pos hk, if_pos hk]
      · have hak : ¬ a = k := fun h => hk (h ▸ han)
        rw [if_neg hk, if_neg hk, List.find?_cons]
        simp only [hak, decide_False]
    · have hf : List.filter (fun kv : GoString × V => decide (kv.1 ≠ n)) ((a, b) :: rest)
          = (a, b) :: List.filter (fun kv : GoString × V => decide (kv.1 ≠ n)) rest := by
        simp [List.filter_cons, han]
      rw [hf, List.cons_append, List.find?_cons, List.find?_cons]
      by_cases hak : a = k
      · have hk : ¬ k = n := fun h => han (hak.trans h)
        simp only [hak, decide_True, if_neg hk, Option.map_some']
      · simp only [hak, decide_False]
        exact ih

/-- What one iteration does, by the three cases of the loop body. -/
theorem newStep_cases (tp : GoString → GoString → Bool) (n : GoString) (d : aliasConfig)
    (st : NewState) :
    (tp n d.Template = false →
      newStep tp n d st = .returned ⟨st.res ++ [n], st.f,
        st.log ++ [.warn "failed to parse template for alias" n]⟩) ∧
    (tp n d.Template = true → d.Args = [] →
      newStep tp n d st = .panicked .indexOutOfRange) ∧
    (tp n d.Template = true → d.Args ≠ [] →
      newStep tp n d st =
        match st.f.description.assign n (entryOf n d) with
        | .panicked p => .panicked p
        | .returned m => .returned ⟨st.res ++ [n], ⟨st.f.configuredAliases, m⟩, st.log⟩) := by
  obtain ⟨hA, hT, _, _, _⟩ := applyDefaults_fields d
  refine ⟨?_, ?_, ?_⟩
  · intro hp
    unfold newStep
    simp only [hT, hp]
    rfl
  · intro hp hargs
    unfold newStep buildSignature
    simp only [hT, hp, hA, hargs]
    rfl
  · intro hp hargs
    obtain ⟨fn, hsig⟩ := buildSignature_params n (applyDefaults d) (by rw [hA]; exact hargs)
    unfold newStep entryOf
    simp only [hT, hp, hsig, hA]
    rfl

/-- An iteration returns unless the template parses and either `d.Args` is
empty or the `description` map is nil. -/
theorem newStep_returned_iff (tp : GoString → GoString → Bool) (n : GoString)
    (d : aliasConfig) (st : NewState) :
    (∃ st1, newStep tp n d st = .returned st1) ↔
      (tp n d.Template = true → d.Args ≠ [] ∧ st.f.description.isSome = true) := by
  obtain ⟨h1, h2, h3⟩ := newStep_cases tp n d st
  by_cases hp : tp n d.Template = true
  · by_cases hargs : d.Args = []
    · rw [h2 hp hargs]
      simp [hp, hargs]
    · rw [h3 hp hargs]
      cases hd : st.f.description with
      | none => simp [GoMap.assign, hp]
      | some l => simp [GoMap.assign, hp, hargs]
  · have hp1 : tp n d.Template = false := by simpa using hp
    rw [h1 hp1]
    simp [hp1]

/-- The mapping after an iteration that returns: the entry of the alias is
added when its template parsed, and nothing else changes. -/
theorem newStep_entry (tp : GoString → GoString → Bool) (n : GoString) (d : aliasConfig)
    (st st1 : NewState) (h : newStep tp n d st = .returned st1) :
    st1.f.description.isSome = st.f.description.isSome ∧
    ∀ k, GoMap.entry st1.f.description k =
      if tp n d.Template = true ∧ k = n then some (entryOf n d)
      else GoMap.entry st.f.description k := by
  obtain ⟨h1, h2, h3⟩ := newStep_cases tp n d st
  by_cases hp : tp n d.Template = true
  · by_cases hargs : d.Args = []
    · rw [h2 hp hargs] at h
      exact absurd h (by simp)
    · rw [h3 hp hargs] at h
      cases hd : st.f.description with
      | none =>
        rw [hd] at h
        simp [GoMap.assign] at h
      | some l =>
        rw [hd] at h
        simp only [GoMap.assign] at h
        injection h with h
        rw [← h]
        refine ⟨rfl, ?_⟩
        intro k
        simp only [entry_assign, hp, true_and]
  · have hp1 : tp n d.Template = false := by simpa using hp
    rw [h1 hp1] at h
    injection h with h
    rw [← h]
    simp [hp1]

/-- The loop returns exactly when every alias whose template parses has an
argument and finds the `description` map allocated; this does not depend on
the order of the aliases. -/
theorem newLoop_returned_iff (tp : GoString → GoString → Bool)
    (as : List (GoString × aliasConfig)) (st : NewState) :
    (∃ st1, newLoop tp as st = .returned st1) ↔
      ∀ a ∈ as, tp a.1 a.2.Template = true →
        a.2.Args ≠ [] ∧ st.f.description.isSome = true := by
  induction as generalizing st with
  | nil => simp [newLoop]
  | cons a rest ih =>
    obtain ⟨n, d⟩ := a
    unfold newLoop
    cases hs : newStep tp n d st with
    | panicked p =>
      have hno : ¬ ∃ st1, newStep tp n d st = .returned st1 := by
        rw [hs]
        simp
      rw [newStep_returned_iff] at hno
      simp only [reduceCtorEq, exists_false, false_iff]
      intro hall
      exact hno (hall (n, d) (List.mem_cons_self _ _))
    | returned st2 =>
      have hyes := (newStep_returned_iff tp n d st).mp ⟨st2, hs⟩
      have hsome := (newStep_entry tp n d st st2 hs).1
      simp only []
      rw [ih st2, hsome]
      constructor
      · intro hall a ha
        rcases List.mem_cons.mp ha with rfl | ha
        · exact hyes
        · exact hall a ha
      · intro hall a ha
        exact hall a (List.mem_cons_of_mem _ ha)

/-- The mapping after the loop, for aliases with pairwise distinct names: the
key `k` is bound to the entry of the alias named `k` when the template of
that alias parsed, and is bound as before the loop otherwise. -/
theorem newLoop_entry_iff (tp : GoString → GoString → Bool)
    (as : List (GoString × aliasConfig)) (st st1 : NewState)
    (hnd : (as.map Prod.fst).Nodup) (h : newLoop tp as st = .returned st1)
    (k : GoString) (v : FunctionDescription) :
    GoMap.entry st1.f.description k = some v ↔
      (∃ d, (k, d) ∈ as ∧ tp k d.Template = true ∧ v = entryOf k d) ∨
      ((∀ d, (k, d) ∈ as → tp k d.Template = false) ∧
        GoMap.entry st.f.description k = some v) := by
  induction as generalizing st with
  | nil =>
    unfold newLoop at h
    injection h with h
    simp [h]
  | cons a rest ih =>
    obtain ⟨n, d⟩ := a
    unfold newLoop at h
    cases hs : newStep tp n d st with
    | panicked p => simp [hs] at h
    | returned st2 =>
      simp only [hs] at h
      rw [List.map_cons, List.nodup_cons] at hnd
      obtain ⟨hn, hnd1⟩ := hnd
      have hnotin : ∀ d1, (n, d1) ∉ rest := by
        intro d1 hmem
        exact hn (List.mem_map.mpr ⟨(n, d1), hmem, rfl⟩)
      rw [ih st2 hnd1 h, (newStep_entry tp n d st st2 hs).2 k]
      by_cases hk : k = n
      · subst hk
        by_cases hp : tp k d.Template = true
        · simp only [hp, and_self, if_true, Option.some.injEq]
          constructor
          · rintro (⟨d1, hmem, _, _⟩ | ⟨_, hv⟩)
            · exact absurd hmem (hnotin d1)
            · exact Or.inl ⟨d, List.mem_cons_self _ _, hp, hv.symm⟩
          · rintro (⟨d1, hmem, hp1, hv⟩ | ⟨hall, _⟩)
            · rcases List.mem_cons.mp hmem with heq | hmem
              · injection heq with _ hd
                subst hd
                exact Or.inr ⟨fun d2 hd2 => absurd hd2 (hnotin d2), hv.symm⟩
              · exact absurd hmem (hnotin d1)
            · have := hall d (List.mem_cons_self _ _)
              rw [hp] at this
              exact absurd this (by simp)
        · have hp1 : tp k d.Template = false := by simpa using hp
          simp only [hp1, Bool.false_eq_true, false_and, if_false]
          constructor
          · rintro (⟨d1, hmem, _, _⟩ | ⟨_, hv⟩)
            · exact absurd hmem (hnotin d1)
            · refine Or.inr ⟨?_, hv⟩
              intro d1 hmem
              rcases List.mem_cons.mp hmem with heq | hmem
              · injection heq with _ hd
                subst hd
                exact hp1
              · exact absurd hmem (hnotin d1)
          · rintro (⟨d1, hmem, hpd, _⟩ | ⟨_, hv⟩)
            · rcases List.mem_cons.mp hmem with heq | hmem
              · injection heq with _ hd
                subst hd
                rw [hp1] at hpd
                exact absurd hpd (by simp)
              · exact absurd hmem (hnotin d1)
            · exact Or.inr ⟨fun d2 hd2 => absurd hd2 (hnotin d2), hv⟩
      · have hmem_iff : ∀ d1, (k, d1) ∈ (n, d) :: rest ↔ (k, d1) ∈ rest := by
          intro d1
          constructor
          · intro hmem
            rcases List.mem_cons.mp hmem with heq | hmem
            · injection heq with hkn _
              exact absurd hkn hk
            · exact hmem
          · exact List.mem_cons_of_mem _
        simp only [hk, and_false, if_false, hmem_iff]

/-- On the engine `New` creates, whose maps are nil, the loop returns exactly
when no template parses, and then it has registered every alias and left the
engine as it was. -/
theorem New_decoded_cases (tp : GoString → GoString → Bool) (as : List (GoString × aliasConfig))
    (hne : as ≠ []) :
    ((∀ a ∈ as, tp a.1 a.2.Template = false) →
      ∃ log, New tp (.decoded ⟨true, as⟩)
        = .returned (as.map (fun a => ⟨a.1, ⟨none, none⟩⟩)) log) ∧
    ((¬ ∀ a ∈ as, tp a.1 a.2.Template = false) →
      ∃ p, New tp (.decoded ⟨true, as⟩) = .panicked p) := by
  have hlen : ¬ as.length = 0 := fun h => hne (List.length_eq_zero.mp h)
  have hiff := newLoop_returned_iff tp as ⟨[], ⟨none, none⟩, []⟩
  constructor
  · intro hall
    obtain ⟨st1, hst1⟩ := hiff.mpr (fun a ha hp => by
      rw [hall a ha] at hp
      exact absurd hp (by simp))
    have hres := newLoop_res tp as _ st1 hst1
    have hf := (newLoop_nil_description tp as _ st1 rfl hst1).2
    refine ⟨st1.log, ?_⟩
    unfold New
    simp only [hlen, hst1, hres, hf]
    simp
  · intro hnall
    cases hloop : newLoop tp as ⟨[], ⟨none, none⟩, []⟩ with
    | returned st1 =>
      exfalso
      apply hnall
      intro a ha
      have := hiff.mp ⟨st1, hloop⟩ a ha
      cases hp : tp a.1 a.2.Template with
      | false => rfl
      | true => exact absurd (this hp).2 (by simp)
    | panicked p =>
      refine ⟨p, ?_⟩
      unfold New
      simp only [hlen, hloop]
      simp

/-- Whether `New` returns on a decoded configuration. -/
theorem New_returned_iff (tp : GoString → GoString → Bool) (enabled : Bool)
    (as : List (GoString × aliasConfig)) :
    (∃ res log, New tp (.decoded ⟨enabled, as⟩) = .returned res log) ↔
      (enabled = false ∨ as = [] ∨ ∀ a ∈ as, tp a.1 a.2.Template = false) := by
  cases enabled with
  | false => exact ⟨fun _ => Or.inl rfl, fun _ => ⟨[], _, rfl⟩⟩
  | true =>
    by_cases hne : as = []
    · subst hne
      exact ⟨fun _ => Or.inr (Or.inl rfl), fun _ => ⟨[], _, rfl⟩⟩
    · obtain ⟨h1, h2⟩ := New_decoded_cases tp as hne
      by_cases hall : ∀ a ∈ as, tp a.1 a.2.Template = false
      · obtain ⟨log, hlog⟩ := h1 hall
        exact ⟨fun _ => Or.inr (Or.inr hall), fun _ => ⟨_, log, hlog⟩⟩
      · obtain ⟨p, hp⟩ := h2 hall
        constructor
        · rintro ⟨res, log, h⟩
          rw [hp] at h
          exact absurd h (by simp)
        · rintro (h | h | h)
          · exact absurd h (by simp)
          · exact absurd h hne
          · exact absurd h hall

/-- The documentation mapping behind the records of `New`: the nil map when
`New` returns records, and none when it returns no record or panics. -/
theorem New_Description_decoded (tp : GoString → GoString → Bool) (enabled : Bool)
    (as : List (GoString × aliasConfig)) :
    (New tp (.decoded ⟨enabled, as⟩)).Description =
      if enabled = true ∧ as ≠ [] ∧ ∀ a ∈ as, tp a.1 a.2.Template = false then some none
      else none := by
  cases enabled with
  | false =>
    rw [if_neg (fun h => absurd h.1 (by simp))]
    rfl
  | true =>
    by_cases hne : as = []
    · subst hne
      rw [if_neg (fun h => h.2.1 rfl)]
      rfl
    · obtain ⟨h1, h2⟩ := New_decoded_cases tp as hne
      by_cases hall : ∀ a ∈ as, tp a.1 a.2.Template = false
      · obtain ⟨log, hlog⟩ := h1 hall
        rw [hlog, if_pos ⟨rfl, hne, hall⟩]
        cases as with
        | nil => exact absurd rfl hne
        | cons a rest => rfl
      · obtain ⟨p, hp⟩ := h2 hall
        rw [hp, if_neg (fun h => hall h.2.2)]
        rfl

/-- C12: the documentation mapping does not depend on the order in which the
alias entries are visited.  For two orders of the same entries `New` returns
on one exactly when it returns on the other, and `Description` gives the same
mapping; and from any engine state the loop of `New` over aliases with
pairwise distinct names, when it returns in one order, returns in the other
with a mapping that binds every key to the same entry. -/
theorem new_description_order_independent (tp : GoString → GoString → Bool) (enabled : Bool)
    (as1 as2 : List (GoString × aliasConfig)) (hperm : as1.Perm as2) :
    ((∃ res log, New tp (.decoded ⟨enabled, as1⟩) = .returned res log) ↔
      (∃ res log, New tp (.decoded ⟨enabled, as2⟩) = .returned res log)) ∧
    (New tp (.decoded ⟨enabled, as1⟩)).Description
      = (New tp (.decoded ⟨enabled, as2⟩)).Description ∧
    (∀ st st1, (as1.map Prod.fst).Nodup → newLoop tp as1 st = .returned st1 →
      ∃ st2, newLoop tp as2 st = .returned st2 ∧
        ∀ k, GoMap.entry st1.f.description k = GoMap.entry st2.f.description k) := by
  have hnil : as1 = [] ↔ as2 = [] := by
    rw [← List.length_eq_zero, ← List.length_eq_zero, hperm.length_eq]
  have hall : (∀ a ∈ as1, tp a.1 a.2.Template = false)
      ↔ (∀ a ∈ as2, tp a.1 a.2.Template = false) :=
    ⟨fun h a ha => h a (hperm.mem_iff.mpr ha), fun h a ha => h a (hperm.mem_iff.mp ha)⟩
  refine ⟨?_, ?_, ?_⟩
  · rw [New_returned_iff, New_returned_iff, hnil, hall]
  · rw [New_Description_decoded, New_Description_decoded]
    simp only [ne_eq, hnil, hall]
  · intro st st1 hnd h1
    have hret := (newLoop_returned_iff tp as1 st).mp ⟨st1, h1⟩
    obtain ⟨st2, h2⟩ := (newLoop_returned_iff tp as2 st).mpr
      (fun a ha => hret a (hperm.mem_iff.mpr ha))
    refine ⟨st2, h2, ?_⟩
    have hnd2 : (as2.map Prod.fst).Nodup := (hperm.map Prod.fst).nodup_iff.mp hnd
    intro k
    apply Option.ext
    intro v
    rw [Option.mem_def, Option.mem_def, newLoop_entry_iff tp as1 st st1 hnd h1 k v,
      newLoop_entry_iff tp as2 st st2 hnd2 h2 k v]
    simp only [hperm.mem_iff]

/-- The witness of C12: two aliases in both orders, stored from an engine
whose `description` map is allocated; the two mappings agree on a key. -/
theorem new_description_order_independent_witness :
    GoMap.entry (some [
        ("first".toList, entryOf "first".toList
          ⟨false, "f(%)".toList, [⟨"seriesList".toList, true, 1⟩], [], [], []⟩),
        ("second".toList, entryOf "second".toList
          ⟨false, "g(%)".toList, [⟨"seriesList".toList, true, 1⟩], [], [], []⟩)])
      "first".toList
    = GoMap.entry (some [
        ("second".toList, entryOf "second".toList
          ⟨false, "g(%)".toList, [⟨"seriesList".toList, true, 1⟩], [], [], []⟩),
        ("first".toList, entryOf "first".toList
          ⟨false, "f(%)".toList, [⟨"seriesList".toList, true, 1⟩], [], [], []⟩)])
      "first".toList := by
  obtain ⟨st2, h2, hk⟩ := (new_description_order_independent (fun _ _ => true) true
    [("first".toList, ⟨false, "f(%)".toList, [⟨"seriesList".toList, true, 1⟩], [], [], []⟩),
     ("second".toList, ⟨false, "g(%)".toList, [⟨"seriesList".toList, true, 1⟩], [], [], []⟩)]
    [("second".toList, ⟨false, "g(%)".toList, [⟨"seriesList".toList, true, 1⟩], [], [], []⟩),
     ("first".toList, ⟨false, "f(%)".toList, [⟨"seriesList".toList, true, 1⟩], [], [], []⟩)]
    (List.Perm.swap _ _ _)).2.2
    ⟨[], ⟨none, some []⟩, []⟩
    ⟨["first".toList, "second".toList], ⟨none, some [
        ("first".toList, entryOf "first".toList
          ⟨false, "f(%)".toList, [⟨"seriesList".toList, true, 1⟩], [], [], []⟩),
        ("second".toList, entryOf "second".toList
          ⟨false, "g(%)".toList, [⟨"seriesList".toList, true, 1⟩], [], [], []⟩)]⟩, []⟩
    (by decide) (by decide)
  have hst2 : st2 = ⟨["second".toList, "first".toList], ⟨none, some [
        ("second".toList, entryOf "second".toList
          ⟨false, "g(%)".toList, [⟨"seriesList".toList, true, 1⟩], [], [], []⟩),
        ("first".toList, entryOf "first".toList
          ⟨false, "f(%)".toList, [⟨"seriesList".toList, true, 1⟩], [], [], []⟩)]⟩, []⟩ := by
    have hev : newLoop (fun _ _ => true)
        [("second".toList, ⟨false, "g(%)".toList, [⟨"seriesList".toList, true, 1⟩], [], [], []⟩),
         ("first".toList, ⟨false, "f(%)".toList, [⟨"seriesList".toList, true, 1⟩], [], [], []⟩)]
        ⟨[], ⟨none, some []⟩, []⟩
        = .returned ⟨["second".toList, "first".toList], ⟨none, some [
          ("second".toList, entryOf "second".toList
            ⟨false, "g(%)".toList, [⟨"seriesList".toList, true, 1⟩], [], [], []⟩),
          ("first".toList, entryOf "first".toList
            ⟨false, "f(%)".toList, [⟨"seriesList".toList, true, 1⟩], [], [], []⟩)]⟩, []⟩ := by
      decide
    rw [hev] at h2
    injection h2 with h2
    exact h2.symm
  rw [hst2] at hk
  exact hk "first".toList

/-! ## Further claims on `Do` -/

/-- C14 as stated fails: with an empty rename as the fourth argument the
output is the bare new expression, not `alias(<newExpr>,"")`. -/
theorem do_empty_rename_counterexample :
    Do (fun _ => .ok [⟨"a.b.c.d".toList⟩]) id ⟨none, none⟩
        (.func "myAlias".toList [.name "a.*.*.*".toList, .const 2,
          .str "seriesAbove(%,0)".toList, .str []])
      = .returned ⟨true, ["seriesAbove(a.b,0)".toList], none⟩ ∧
    "seriesAbove(a.b,0)".toList ≠ "alias(seriesAbove(a.b,0),\"\")".toList := by
  constructor <;> decide

/-- C14, amended: with exactly four arguments whose fourth is a string and `N`
in range, every output is wrapped as `alias(<newExpr>,"<substitutedRename>")`
when the rename is not empty, and is the bare new expression when the rename
is the empty string. -/
theorem do_four_arguments (g : SeriesFetch) (xm : GoString → GoString) (f : customAlias)
    (t : GoString) (arg0 : Expr) (N : Int) (cb rn : GoString) (ss : List MetricData)
    (hg : g arg0 = .ok ss)
    (hN : ∀ s ∈ ss, 0 ≤ N ∧ N ≤ ((stringsSplit '.' (xm s.Name)).length : Int)) :
    Do g xm f (.func t [arg0, .const N, .str cb, .str rn]) =
      .returned ⟨true,
        ss.map (fun s =>
          if rn = [] then
            stringsReplace '%'
              (stringsJoin ['.'] ((stringsSplit '.' (xm s.Name)).take N.toNat)) cb
          else
            "alias(".toList
              ++ stringsReplace '%'
                  (stringsJoin ['.'] ((stringsSplit '.' (xm s.Name)).take N.toNat)) cb
              ++ ",\"".toList
              ++ stringsReplace '%'
                  (stringsJoin ['.'] ((stringsSplit '.' (xm s.Name)).take N.toNat)) rn
              ++ "\")".toList),
        none⟩ := by
  rw [Do_of_args g xm f (.func t [arg0, .const N, .str cb, .str rn]) arg0
    [.const N, .str cb, .str rn] ss N cb rn rfl hg rfl rfl rfl]
  rw [rewriteLoop_map xm N cb rn (fun s =>
    if rn = [] then
      stringsReplace '%' (stringsJoin ['.'] ((stringsSplit '.' (xm s.Name)).take N.toNat)) cb
    else
      "alias(".toList
        ++ stringsReplace '%' (stringsJoin ['.'] ((stringsSplit '.' (xm s.Name)).take N.toNat)) cb
        ++ ",\"".toList
        ++ stringsReplace '%' (stringsJoin ['.'] ((stringsSplit '.' (xm s.Name)).take N.toNat)) rn
        ++ "\")".toList) ss]
  · simp
  · intro s hs
    obtain ⟨h0, h1⟩ := hN s hs
    by_cases hrn : rn = []
    · simp [rewriteSeries, sliceTo_inRange _ _ h0 h1, hrn]
    · simp [rewriteSeries, sliceTo_inRange _ _ h0 h1, hrn, sprintfAlias]

/-- The witness of C14: the empty rename on `a.b.c.d` with `N = 2`. -/
theorem do_four_arguments_witness :
    Do (fun _ => .ok [⟨"a.b.c.d".toList⟩]) id ⟨none, none⟩
        (.func "myAlias".toList [.name "a.*.*.*".toList, .const 2,
          .str "seriesAbove(%,0)".toList, .str []])
      = .returned ⟨true, ["seriesAbove(a.b,0)".toList], none⟩ :=
  do_four_arguments (fun _ => .ok [⟨"a.b.c.d".toList⟩]) id ⟨none, none⟩ "myAlias".toList
    (.name "a.*.*.*".toList) 2 "seriesAbove(%,0)".toList [] [⟨"a.b.c.d".toList⟩] rfl
    (by decide)

/-- C15: the result of `Do` depends on the expression only through its
arguments, and not on the engine: two invocations with the same arguments and
the same series fetch return the same result, whatever their target names and
whatever catalogs their engines hold. -/
theorem do_independent_of_target_and_catalog (g : SeriesFetch) (xm : GoString → GoString)
    (f1 f2 : customAlias) (e1 e2 : Expr) (h : e1.Args = e2.Args) :
    Do g xm f1 e1 = Do g xm f2 e2 := by
  unfold Do getNewName Expr.GetIntArg Expr.GetStringArg
  rw [h]

/-- The witness of C15: two alias names, an engine with nil maps and an engine
whose catalog holds an entry. -/
theorem do_independent_of_target_and_catalog_witness :
    Do (fun _ => .ok [⟨"a.b.c.d".toList⟩]) id ⟨none, none⟩
        (.func "myAlias".toList [.name "a.*.*.*".toList, .const 2, .str "f(%)".toList])
      = Do (fun _ => .ok [⟨"a.b.c.d".toList⟩]) id
        ⟨some [("other".toList, ⟨true, "g(%)".toList, [], [], [], []⟩)], some []⟩
        (.func "other".toList [.name "a.*.*.*".toList, .const 2, .str "f(%)".toList]) :=
  do_independent_of_target_and_catalog (fun _ => .ok [⟨"a.b.c.d".toList⟩]) id
    ⟨none, none⟩ ⟨some [("other".toList, ⟨true, "g(%)".toList, [], [], [], []⟩)], some []⟩
    (.func "myAlias".toList [.name "a.*.*.*".toList, .const 2, .str "f(%)".toList])
    (.func "other".toList [.name "a.*.*.*".toList, .const 2, .str "f(%)".toList]) rfl

end CustomAlias

namespace Limiter

open CustomAlias (GoString)

/-! ## Lemmas on the channel map -/

theorem getChan_mem (m : List (GoString × Chan)) (s : GoString) (ch : Chan)
    (h : getChan m s = some ch) : (s, ch) ∈ m := by
  induction m with
  | nil => simp [getChan] at h
  | cons kv rest ih =>
    obtain ⟨k, c⟩ := kv
    unfold getChan at h
    by_cases hk : k = s
    · rw [if_pos hk] at h
      injection h with h
      simp [hk, h]
    · rw [if_neg hk] at h
      exact List.mem_cons_of_mem _ (ih h)

theorem getChan_updateChan (op : Chan → Chan) (m : List (GoString × Chan)) (s t : GoString) :
    getChan (updateChan op m s) t = if t = s then (getChan m s).map op else getChan m t := by
  induction m with
  | nil => simp [getChan, updateChan]
  | cons kv rest ih =>
    obtain ⟨k, c⟩ := kv
    unfold updateChan
    by_cases hk : k = s
    · subst hk
      rw [if_pos rfl]
      by_cases ht : t = k
      · subst ht
        simp [getChan]
      · have hkt : ¬ k = t := fun h => ht h.symm
        simp [getChan, ht, hkt]
    · rw [if_neg hk]
      by_cases ht : t = s
      · subst ht
        simp only [getChan, if_neg hk, ih, if_pos]
      · by_cases hkt : k = t
        · simp [getChan, hkt, ht]
        · simp only [getChan, if_neg hkt, ih, if_neg ht]

theorem updateChan_mem (op : Chan → Chan) (m : List (GoString × Chan)) (s : GoString)
    (kv : GoString × Chan) (h : kv ∈ updateChan op m s) :
    kv ∈ m ∨ ∃ ch, getChan m s = some ch ∧ kv = (s, op ch) := by
  induction m with
  | nil => simp [updateChan] at h
  | cons hd rest ih =>
    obtain ⟨k, c⟩ := hd
    unfold updateChan at h
    by_cases hk : k = s
    · rw [if_pos hk] at h
      rcases List.mem_cons.mp h with h | h
      · exact Or.inr ⟨c, by simp [getChan, hk], by rw [h, hk]⟩
      · exact Or.inl (List.mem_cons_of_mem _ h)
    · rw [if_neg hk] at h
      rcases List.mem_cons.mp h with h | h
      · exact Or.inl (by rw [h]; exact List.mem_cons_self _ _)
      · rcases ih h with h1 | ⟨ch, h1, h2⟩
        · exact Or.inl (List.mem_cons_of_mem _ h1)
        · exact Or.inr ⟨ch, by simp [getChan, hk, h1], h2⟩

theorem setChan_mem (m : List (GoString × Chan)) (s : GoString) (ch : Chan)
    (kv : GoString × Chan) (h : kv ∈ setChan m s ch) : kv ∈ m ∨ kv = (s, ch) := by
  induction m with
  | nil =>
    simp only [setChan, List.mem_singleton] at h
    exact Or.inr h
  | cons hd rest ih =>
    obtain ⟨k, c⟩ := hd
    unfold setChan at h
    by_cases hk : k = s
    · rw [if_pos hk] at h
      rcases List.mem_cons.mp h with h | h
      · exact Or.inr (by rw [h, hk])
      · exact Or.inl (List.mem_cons_of_mem _ h)
    · rw [if_neg hk] at h
      rcases List.mem_cons.mp h with h | h
      · exact Or.inl (by rw [h]; exact List.mem_cons_self _ _)
      · rcases ih h with h1 | h1
        · exact Or.inl (List.mem_cons_of_mem _ h1)
        · exact Or.inr h1

theorem getChan_setChan (m : List (GoString × Chan)) (s t : GoString) (ch : Chan) :
    getChan (setChan m s ch) t = if t = s then some ch else getChan m t := by
  induction m with
  | nil =>
    by_cases ht : t = s
    · simp [setChan, getChan, ht]
    · have hst : ¬ s = t := fun h => ht h.symm
      simp [setChan, getChan, ht, hst]
  | cons kv rest ih =>
    obtain ⟨k, c⟩ := kv
    unfold setChan
    by_cases hk : k = s
    · subst hk
      rw [if_pos rfl]
      by_cases ht : t = k
      · subst ht
        simp [getChan]
      · have hkt : ¬ k = t := fun h => ht h.symm
        simp [getChan, ht, hkt]
    · rw [if_neg hk]
      by_cases ht : t = s
      · subst ht
        simp only [getChan, if_neg hk, ih, if_pos]
      · by_cases hkt : k = t
        · simp [getChan, hkt, ht]
        · simp only [getChan, if_neg hkt, ih, if_neg ht]

/-! ## The invariant of the limiter -/

theorem makeChans_wellFormed (l : Int) (hl : 0 < l) (servers : List GoString)
    (m0 : List (GoString × Chan)) (sl : ServerLimiter)
    (hinv : ∀ kv ∈ m0, kv.2.cap = l.toNat ∧ kv.2.len ≤ l.toNat)
    (h : makeChans l servers m0 = .returned sl) :
    ∃ m, sl = some m ∧ (∀ kv ∈ m, kv.2.cap = l.toNat ∧ kv.2.len ≤ l.toNat) ∧
      ∀ s, (s ∈ servers ∨ (getChan m0 s).isSome = true) → (getChan m s).isSome = true := by
  induction servers generalizing m0 with
  | nil =>
    unfold makeChans at h
    injection h with h
    exact ⟨m0, h.symm, hinv, fun s hs => by simpa using hs⟩
  | cons a rest ih =>
    unfold makeChans at h
    rw [if_neg (by omega)] at h
    have hinv1 : ∀ kv ∈ setChan m0 a ⟨l.toNat, 0⟩, kv.2.cap = l.toNat ∧ kv.2.len ≤ l.toNat := by
      intro kv hkv
      rcases setChan_mem m0 a _ kv hkv with h1 | h1
      · exact hinv kv h1
      · rw [h1]
        exact ⟨rfl, Nat.zero_le _⟩
    obtain ⟨m, hm, hinvm, hdom⟩ := ih _ hinv1 h
    refine ⟨m, hm, hinvm, ?_⟩
    intro s hs
    apply hdom s
    by_cases hsa : s = a
    · right
      rw [getChan_setChan, if_pos hsa]
      rfl
    · rcases hs with hs | hs
      · rcases List.mem_cons.mp hs with h1 | h1
        · exact absurd h1 hsa
        · exact Or.inl h1
      · right
        rw [getChan_setChan, if_neg hsa]
        exact hs

/-- A limiter made with a positive limit satisfies the invariant. -/
theorem NewServerLimiter_wellFormed (servers : List GoString) (l : Int) (hl : 0 < l)
    (sl : ServerLimiter) (h : NewServerLimiter servers l = .returned sl) :
    WellFormed l.toNat servers sl := by
  unfold NewServerLimiter at h
  rw [if_neg (by omega)] at h
  obtain ⟨m, hm, hinv, hdom⟩ := makeChans_wellFormed l hl servers [] sl (by simp) h
  exact ⟨m, hm, hinv, fun s hs => hdom s (Or.inl hs)⟩

theorem updateChan_wellFormed (c : Nat) (servers : List GoString) (m : List (GoString × Chan))
    (op : Chan → Chan) (s : GoString)
    (hwf : WellFormed c servers (some m))
    (hop : ∀ ch, getChan m s = some ch → (op ch).cap = c ∧ (op ch).len ≤ c) :
    WellFormed c servers (some (updateChan op m s)) := by
  obtain ⟨m1, hm1, hinv, hdom⟩ := hwf
  injection hm1 with hm1
  subst hm1
  refine ⟨_, rfl, ?_, ?_⟩
  · intro kv hkv
    rcases updateChan_mem op m s kv hkv with h1 | ⟨ch, h1, h2⟩
    · exact hinv kv h1
    · rw [h2]
      exact hop ch h1
  · intro t ht
    rw [getChan_updateChan]
    by_cases hts : t = s
    · rw [if_pos hts]
      have := hdom t ht
      rw [hts] at this
      cases hg : getChan m s with
      | none => rw [hg] at this; simp at this
      | some ch => rfl
    · rw [if_neg hts]
      exact hdom t ht

/-- Every step keeps the invariant. -/
theorem step_wellFormed (c : Nat) (servers : List GoString) (sl : ServerLimiter) (ev : Event)
    (hwf : WellFormed c servers sl) : WellFormed c servers (step sl ev) := by
  obtain ⟨m, hm, hinv, hdom⟩ := hwf
  subst hm
  have hwf : WellFormed c servers (some m) := ⟨m, rfl, hinv, hdom⟩
  cases ev with
  | enter s ctxDone sendFirst =>
    unfold step Enter
    simp only []
    split_ifs with h1 h2
    · apply updateChan_wellFormed c servers m _ s hwf
      intro ch hch
      have hmem := hinv _ (getChan_mem m s ch hch)
      have hsend : ch.len < ch.cap := by
        have := h1.1
        unfold canSend at this
        rw [hch] at this
        simpa using this
      simp only [] at hmem
      exact ⟨hmem.1, by simp only []; omega⟩
    · exact hwf
    · exact hwf
  | leave s =>
    unfold step Leave
    simp only []
    cases hg : getChan m s with
    | none => exact hwf
    | some ch =>
      simp only []
      split_ifs with h1
      · apply updateChan_wellFormed c servers m _ s hwf
        intro ch1 hch1
        have hmem := hinv _ (getChan_mem m s ch1 hch1)
        simp only [] at hmem
        exact ⟨hmem.1, by simp only []; omega⟩
      · exact hwf

theorem run_wellFormed (c : Nat) (servers : List GoString) (events : List Event)
    (sl : ServerLimiter) (hwf : WellFormed c servers sl) :
    WellFormed c servers (run sl events) := by
  induction events generalizing sl with
  | nil => exact hwf
  | cons ev rest ih =>
    unfold run
    rw [List.foldl_cons]
    exact ih _ (step_wellFormed c servers sl ev hwf)

/-! ## The claims on the limiter -/

/-- C13: for a limiter made with a limit `l > 0` and a server `s` of its list,
after every sequence of `Enter` and `Leave` steps at most `l` slots of `s` are
claimed; an `Enter` for `s` returns nil only from a state with fewer than `l`
claimed slots, and claims one; with `l` slots claimed it is blocked while the
context is not done, a `Leave` then frees a slot, and once the context is done
it returns `timeout exceeded` and leaves the limiter as it is. -/
theorem limiter_never_exceeds_limit (servers : List GoString) (l : Int) (sl0 : ServerLimiter)
    (s : GoString) (events : List Event)
    (hl : 0 < l) (hnew : NewServerLimiter servers l = .returned sl0) (hs : s ∈ servers) :
    claimed (run sl0 events) s ≤ l.toNat ∧
    (∀ ctxDone sendFirst sl1,
      Enter (run sl0 events) ctxDone sendFirst s = .returned none sl1 →
        claimed (run sl0 events) s < l.toNat ∧
        claimed sl1 s = claimed (run sl0 events) s + 1) ∧
    (∀ ctxDone sendFirst err sl1,
      Enter (run sl0 events) ctxDone sendFirst s = .returned (some err) sl1 →
        ctxDone = true ∧ err = "timeout exceeded".toList ∧ sl1 = run sl0 events) ∧
    (claimed (run sl0 events) s = l.toNat →
      (∀ sendFirst, Enter (run sl0 events) false sendFirst s = .blocked) ∧
      (∀ sendFirst, Enter (run sl0 events) true sendFirst s
        = .returned (some "timeout exceeded".toList) (run sl0 events)) ∧
      ∃ sl1, Leave (run sl0 events) s = .returned sl1 ∧ claimed sl1 s + 1 = l.toNat) := by
  have hwf := run_wellFormed l.toNat servers events sl0
    (NewServerLimiter_wellFormed servers l hl sl0 hnew)
  obtain ⟨m, hm, hinv, hdom⟩ := hwf
  rw [hm]
  have hsome := hdom s hs
  cases hg : getChan m s with
  | none => rw [hg] at hsome; simp at hsome
  | some ch =>
    have hmem := hinv _ (getChan_mem m s ch hg)
    simp only [] at hmem
    obtain ⟨hcap, hlen⟩ := hmem
    have hpos : 0 < l.toNat := by omega
    have hclaimed : claimed (some m) s = ch.len := by simp [claimed, hg]
    have hcan : canSend m s = decide (ch.len < l.toNat) := by simp [canSend, hg, hcap]
    rw [hclaimed]
    refine ⟨hlen, ?_, ?_, ?_⟩
    · intro ctxDone sendFirst sl1 hE
      unfold Enter at hE
      simp only [hcan] at hE
      split_ifs at hE with h1 h2
      · injection hE with _ hE
        have hlt : ch.len < l.toNat := by simpa using h1.1
        refine ⟨hlt, ?_⟩
        rw [← hE]
        simp [claimed, getChan_updateChan, hg]
      · injection hE with hE _
        exact absurd hE (by simp)
    · intro ctxDone sendFirst err sl1 hE
      unfold Enter at hE
      simp only [hcan] at hE
      split_ifs at hE with h1 h2
      · injection hE with hE _
        exact absurd hE (by simp)
      · injection hE with hE1 hE2
        injection hE1 with hE1
        exact ⟨h2, hE1.symm, hE2.symm⟩
    · intro hfull
      have hnot : ¬ ch.len < l.toNat := by omega
      refine ⟨?_, ?_, ?_⟩
      · intro sendFirst
        simp [Enter, hcan, hnot]
      · intro sendFirst
        simp [Enter, hcan, hnot]
      · refine ⟨some (updateChan (fun ch => { ch with len := ch.len - 1 }) m s), ?_, ?_⟩
        · have hlenpos : 0 < ch.len := by omega
          simp [Leave, hg, hlenpos]
        · simp only [claimed, getChan_updateChan, if_pos, hg, Option.map_some']
          omega

/-- The witness of C13: a limit of two for one server; after three calls of
`Enter` and one of `Leave` one slot is claimed, the third `Enter` having been
blocked. -/
theorem limiter_never_exceeds_limit_witness :
    claimed (run (some [("a:8080".toList, ⟨2, 0⟩)])
        [.enter "a:8080".toList false true, .enter "a:8080".toList false true,
         .enter "a:8080".toList false true, .leave "a:8080".toList]) "a:8080".toList
      ≤ (2 : Int).toNat :=
  (limiter_never_exceeds_limit ["a:8080".toList] 2 (some [("a:8080".toList, ⟨2, 0⟩)])
    "a:8080".toList
    [.enter "a:8080".toList false true, .enter "a:8080".toList false true,
     .enter "a:8080".toList false true, .leave "a:8080".toList]
    (by decide) (by decide) (by decide)).1

/-- C16: a limit of zero gives the nil limiter, on which `Enter` returns nil
for every server and every context, done or not, and claims nothing, and
`Leave` returns at once and changes nothing. -/
theorem nil_limiter_is_unlimited (servers : List GoString) (s : GoString)
    (ctxDone sendFirst : Bool) (events : List Event) :
    NewServerLimiter servers 0 = .returned none ∧
    Enter none ctxDone sendFirst s = .returned none none ∧
    Leave none s = .returned none ∧
    run none events = none ∧
    claimed (run none events) s = 0 := by
  have hrun : ∀ evs : List Event, run none evs = none := by
    intro evs
    induction evs with
    | nil => rfl
    | cons ev rest ih =>
      unfold run at ih ⊢
      rw [List.foldl_cons]
      cases ev <;> exact ih
  refine ⟨rfl, rfl, rfl, hrun events, ?_⟩
  rw [hrun events]
  rfl

end Limiter
